import Mathlib

/-!
Verification of the telegram-bots core (src/telegram_common/bot.py and
payments.py) against its specification.  The Python dictionaries that hold
per-user session state and per-update deduplication records are embedded as
Lean structures and key-indexed partial functions; the handler bodies are
embedded as pure state-passing functions.  Times are seconds as `Nat`,
calendar days are strings (the code compares `%Y-%m-%d` strings for
equality only).
-/

/-! ## Session store (bot.py: init_user_data, reset_daily_usage_if_new_day,
check_user_access, process_user_message history handling, clear) -/

def MAX_CONVERSATION_HISTORY : Nat := 22

structure ChatMsg where
  role : String
  content : String
deriving DecidableEq

structure DailyUsage where
  count : Nat
  date : String
deriving DecidableEq

structure UserData where
  history : List ChatMsg
  daily_usage : DailyUsage
  is_premium : Bool
deriving DecidableEq

/-- Python whitespace characters recognised by `str.strip` (ASCII range). -/
def isPyWs (c : Char) : Bool :=
  c = ' ' || c = '\t' || c = '\n' || c = '\r' || c = Char.ofNat 11 || c = Char.ofNat 12

/-- Python truthiness test `system_prompt and system_prompt.strip()`:
the string contains at least one non-whitespace character. -/
def hasNonWs (s : String) : Bool := s.data.any (fun c => !(isPyWs c))

/-- bot.py `init_user_data`: history holds the system prompt only when the
prompt is non-empty after stripping; usage starts at 0 with empty date. -/
def init_user_data (system_prompt : String) : UserData :=
  { history := if hasNonWs system_prompt then [⟨"system", system_prompt⟩] else []
    daily_usage := ⟨0, ""⟩
    is_premium := false }

/-- bot.py `reset_daily_usage_if_new_day`: if the stored date differs from
today, count is zeroed and the date set to today. -/
def reset_daily_usage_if_new_day (u : UserData) (today : String) : UserData :=
  if u.daily_usage.date ≠ today then { u with daily_usage := ⟨0, today⟩ } else u

/-- `bot_config.get("daily_limit", float('inf'))`: `none` models the
unbounded default; `count >= inf` is always false. -/
def limitReached (count : Nat) : Option Nat → Bool
  | none => false
  | some l => count ≥ l

/-- bot.py `check_user_access`: premium users always pass; otherwise the
daily counter is lazily rolled over, compared against the configured limit,
and incremented on success.  Returns (allowed, updated session).  (The
upgrade prompt sent on denial is an external reply and carries no state.) -/
def check_user_access (u : UserData) (limit : Option Nat) (today : String) :
    Bool × UserData :=
  if u.is_premium then (true, u)
  else
    let u1 := reset_daily_usage_if_new_day u today
    if limitReached u1.daily_usage.count limit then (false, u1)
    else (true, { u1 with daily_usage := ⟨u1.daily_usage.count + 1, u1.daily_usage.date⟩ })

/-- bot.py `process_user_message` lines 321-325: both the user and the
assistant message are appended, then the history is trimmed to
`[history[0]] + history[-(MAX-1):]` whenever it exceeds the maximum —
the first entry is kept unconditionally. -/
def appendAndTrim (h : List ChatMsg) (userMsg assistantMsg : ChatMsg) : List ChatMsg :=
  let h2 := h ++ [userMsg] ++ [assistantMsg]
  if h2.length > MAX_CONVERSATION_HISTORY then
    h2.take 1 ++ h2.drop (h2.length - (MAX_CONVERSATION_HISTORY - 1))
  else h2

/-- The trimming rule as the specification words it: after a push that makes
the history longer than the maximum, keep `[history[0]]` plus the last
`MAX-1` entries when index 0 is a system message, else keep only the last
`MAX` entries.  Stated from the spec for comparison with the code. -/
def specTrimPush (h : List ChatMsg) (m : ChatMsg) : List ChatMsg :=
  let h2 := h ++ [m]
  if h2.length > MAX_CONVERSATION_HISTORY then
    if h2.head?.map ChatMsg.role = some "system" then
      h2.take 1 ++ h2.drop (h2.length - (MAX_CONVERSATION_HISTORY - 1))
    else h2.drop (h2.length - MAX_CONVERSATION_HISTORY)
  else h2

/-- bot.py `clear` for an existing user (lines 473-483): replace the history
by the system prompt (or nothing), then run the lazy daily rollover.
`is_premium` is not touched. -/
def clear_user (u : UserData) (system_prompt : String) (today : String) : UserData :=
  let u1 := { u with
    history := if hasNonWs system_prompt then [⟨"system", system_prompt⟩] else [] }
  reset_daily_usage_if_new_day u1 today

/-- payments.py `handle_successful_payment`: the premium flag is set only
when a session already exists; the welcome reply is sent either way. -/
def premiumWelcomeText : String :=
  "🎉 <b>Welcome to Premium!</b>\n\nYou now have unlimited daily conversations! Thank you for supporting the bot! 💫"

def handle_successful_payment (convs : String → Option UserData) (uid : String) :
    (String → Option UserData) × String :=
  match convs uid with
  | some u => (fun k => if k = uid then some { u with is_premium := true } else convs k,
               premiumWelcomeText)
  | none => (convs, premiumWelcomeText)

/-! ## Theorems: session-store claims -/

/-- C5: for a non-premium session on the same day, `check_user_access`
denies without incrementing once the count reaches the limit, otherwise
increments and allows; with `count = limit - 1` one call allows and reaches
the limit, a further same-day call denies without further increment; a
premium session is always allowed. -/
theorem check_user_access_daily_limit (u : UserData) (l : Nat) (today : String)
    (hp : u.is_premium = false) (hd : u.daily_usage.date = today) :
    (u.daily_usage.count ≥ l → check_user_access u (some l) today = (false, u)) ∧
    (u.daily_usage.count < l → check_user_access u (some l) today =
      (true, { u with daily_usage := ⟨u.daily_usage.count + 1, u.daily_usage.date⟩ })) ∧
    (u.daily_usage.count = l - 1 → 1 ≤ l →
      (check_user_access u (some l) today).1 = true ∧
      ((check_user_access u (some l) today).2).daily_usage.count = l ∧
      check_user_access ((check_user_access u (some l) today).2) (some l) today =
        (false, (check_user_access u (some l) today).2)) ∧
    (∀ (v : UserData) (lim : Option Nat) (t : String), v.is_premium = true →
      (check_user_access v lim t).1 = true) := by
  have hreset : reset_daily_usage_if_new_day u today = u := by
    simp [reset_daily_usage_if_new_day, hd]
  refine ⟨?_, ?_, ?_, ?_⟩
  · intro hge
    simp [check_user_access, hp, hreset, limitReached, hge]
  · intro hlt
    simp [check_user_access, hp, hreset, limitReached, Nat.not_le.mpr hlt]
  · intro hc hl
    have hlt : u.daily_usage.count < l := by omega
    have h1 : check_user_access u (some l) today =
        (true, { u with daily_usage := ⟨u.daily_usage.count + 1, u.daily_usage.date⟩ }) := by
      simp [check_user_access, hp, hreset, limitReached, Nat.not_le.mpr hlt]
    have hcount : u.daily_usage.count + 1 = l := by omega
    refine ⟨by rw [h1], by rw [h1]; simpa using hcount, ?_⟩
    rw [h1]
    simp [check_user_access, reset_daily_usage_if_new_day, hp, hd, limitReached, hcount]
  · intro v lim t hv
    simp [check_user_access, hv]

theorem check_user_access_daily_limit_witness :
    (check_user_access ⟨[], ⟨2, "2025-03-01"⟩, false⟩ (some 3) "2025-03-01").1 =
      true ∧
    ((check_user_access ⟨[], ⟨2, "2025-03-01"⟩, false⟩ (some 3)
      "2025-03-01").2).daily_usage.count = 3 ∧
    check_user_access ((check_user_access ⟨[], ⟨2, "2025-03-01"⟩, false⟩ (some 3)
        "2025-03-01").2) (some 3) "2025-03-01" =
      (false, (check_user_access ⟨[], ⟨2, "2025-03-01"⟩, false⟩ (some 3)
        "2025-03-01").2) :=
  (check_user_access_daily_limit ⟨[], ⟨2, "2025-03-01"⟩, false⟩ 3 "2025-03-01"
    (by decide) (by decide)).2.2.1 (by decide) (by decide)

/-- C8: on a non-premium session whose stored date differs from today's,
the counter is reset before the limit is evaluated, so the outcome is that
of a count of 0 and the date becomes today. -/
theorem check_user_access_new_day_reset (u : UserData) (limit : Option Nat) (today : String)
    (hp : u.is_premium = false) (hd : u.daily_usage.date ≠ today) :
    check_user_access u limit today =
      (if limitReached 0 limit then (false, { u with daily_usage := ⟨0, today⟩ })
       else (true, { u with daily_usage := ⟨1, today⟩ })) := by
  have hreset : reset_daily_usage_if_new_day u today = { u with daily_usage := ⟨0, today⟩ } := by
    simp [reset_daily_usage_if_new_day, hd]
  by_cases h0 : limitReached 0 limit
  · simp [check_user_access, hp, hreset, h0]
  · simp [check_user_access, hp, hreset, h0]

theorem check_user_access_new_day_reset_witness :
    check_user_access ⟨[], ⟨7, "2025-02-28"⟩, false⟩ (some 5) "2025-03-01" =
      (if limitReached 0 (some 5)
       then (false, { history := [], daily_usage := ⟨0, "2025-03-01"⟩, is_premium := false })
       else (true, { history := [], daily_usage := ⟨1, "2025-03-01"⟩, is_premium := false })) :=
  check_user_access_new_day_reset ⟨[], ⟨7, "2025-02-28"⟩, false⟩ (some 5) "2025-03-01"
    (by decide) (by decide)

/-- C6 counterexample: `/clear` on a session whose stored date is stale
changes `daily_usage` (the lazy rollover zeroes the count and rewrites the
date), so the claim that `daily_usage` is left unchanged fails. -/
theorem clear_user_changes_stale_daily_usage :
    (clear_user ⟨[], ⟨5, "2025-01-01"⟩, false⟩ "hello" "2025-01-02").daily_usage ≠
      (⟨[], ⟨5, "2025-01-01"⟩, false⟩ : UserData).daily_usage := by
  decide

/-- C6 amended: `/clear` replaces the history with the system prompt (or
nothing) and leaves `is_premium` unchanged; `daily_usage` is unchanged when
the stored date is already today, and otherwise only the lazy daily
rollover is applied (count 0, date today). -/
theorem clear_user_effect (u : UserData) (p today : String) :
    (clear_user u p today).is_premium = u.is_premium ∧
    (clear_user u p today).history =
      (if hasNonWs p then [⟨"system", p⟩] else []) ∧
    (clear_user u p today).daily_usage =
      (if u.daily_usage.date = today then u.daily_usage else ⟨0, today⟩) := by
  by_cases hd : u.daily_usage.date = today
  · simp [clear_user, reset_daily_usage_if_new_day, hd]
  · simp [clear_user, reset_daily_usage_if_new_day, hd]

/-- C10: a successful-payment update for a user with no session leaves the
session map unchanged while the premium welcome reply is still produced,
and a session created afterwards starts non-premium. -/
theorem payment_without_session_no_upgrade (convs : String → Option UserData)
    (uid : String) (h : convs uid = none) :
    (handle_successful_payment convs uid).1 = convs ∧
    (handle_successful_payment convs uid).2 = premiumWelcomeText ∧
    (∀ p : String, (init_user_data p).is_premium = false) := by
  refine ⟨?_, ?_, ?_⟩
  · simp [handle_successful_payment, h]
  · simp [handle_successful_payment, h]
  · intro p; simp [init_user_data]

theorem payment_without_session_no_upgrade_witness :
    (handle_successful_payment (fun _ => none) "42").1 = (fun _ => none) ∧
    (handle_successful_payment (fun _ => none) "42").2 = premiumWelcomeText ∧
    (init_user_data "sp").is_premium = false :=
  ⟨(payment_without_session_no_upgrade (fun _ => none) "42" rfl).1,
   (payment_without_session_no_upgrade (fun _ => none) "42" rfl).2.1,
   (payment_without_session_no_upgrade (fun _ => none) "42" rfl).2.2 "sp"⟩

/-- C4 counterexample: on a history whose index 0 is not a system message,
the code still keeps index 0 when trimming, while the claim prescribes
keeping only the last `MAX_CONVERSATION_HISTORY` entries; the two disagree
on a full 22-entry non-system history. -/
theorem append_trim_not_spec_trim :
    appendAndTrim (⟨"user", "a"⟩ :: List.replicate 21 ⟨"user", "b"⟩)
        ⟨"user", "y"⟩ ⟨"assistant", "z"⟩ ≠
      specTrimPush (specTrimPush (⟨"user", "a"⟩ :: List.replicate 21 ⟨"user", "b"⟩)
        ⟨"user", "y"⟩) ⟨"assistant", "z"⟩ := by
  decide

/-- C4 amended: the code's append-and-trim (user and assistant message are
pushed, then the history is cut to `[history[0]]` plus the last `MAX-1`
entries whenever it exceeds `MAX`, regardless of the role at index 0) keeps
the length bound, and in particular a history with a system prompt at
index 0 and exactly `MAX` entries keeps its head and its length. -/
theorem append_trim_invariant (h : List ChatMsg) (u a : ChatMsg)
    (hlen : h.length ≤ MAX_CONVERSATION_HISTORY) :
    (appendAndTrim h u a).length ≤ MAX_CONVERSATION_HISTORY ∧
    ((h ++ [u] ++ [a]).length > MAX_CONVERSATION_HISTORY →
      appendAndTrim h u a = (h ++ [u] ++ [a]).take 1 ++
        (h ++ [u] ++ [a]).drop ((h ++ [u] ++ [a]).length - (MAX_CONVERSATION_HISTORY - 1))) ∧
    (h.length = MAX_CONVERSATION_HISTORY →
      (appendAndTrim h u a).head? = h.head? ∧
      (appendAndTrim h u a).length = MAX_CONVERSATION_HISTORY) := by
  have hlen2 : (h ++ [u] ++ [a]).length = h.length + 2 := by simp
  refine ⟨?_, ?_, ?_⟩
  · by_cases hbig : (h ++ [u] ++ [a]).length > MAX_CONVERSATION_HISTORY
    · have : appendAndTrim h u a = (h ++ [u] ++ [a]).take 1 ++
          (h ++ [u] ++ [a]).drop ((h ++ [u] ++ [a]).length - (MAX_CONVERSATION_HISTORY - 1)) := by
        simp only [appendAndTrim, if_pos hbig]
      rw [this]
      rw [List.length_append, List.length_take, List.length_drop]
      simp only [MAX_CONVERSATION_HISTORY] at *
      omega
    · have : appendAndTrim h u a = h ++ [u] ++ [a] := by
        simp only [appendAndTrim, if_neg hbig]
      rw [this]
      simp only [MAX_CONVERSATION_HISTORY] at *
      omega
  · intro hbig
    simp only [appendAndTrim, if_pos hbig]
  · intro hmax
    have hbig : (h ++ [u] ++ [a]).length > MAX_CONVERSATION_HISTORY := by omega
    have heq : appendAndTrim h u a = (h ++ [u] ++ [a]).take 1 ++
        (h ++ [u] ++ [a]).drop ((h ++ [u] ++ [a]).length - (MAX_CONVERSATION_HISTORY - 1)) := by
      simp only [appendAndTrim, if_pos hbig]
    constructor
    · rw [heq]
      have hne : h ≠ [] := by
        intro hnil
        rw [hnil] at hmax
        simp [MAX_CONVERSATION_HISTORY] at hmax
      obtain ⟨x, t, rfl⟩ := List.exists_cons_of_ne_nil hne
      simp
    · rw [heq]
      rw [List.length_append, List.length_take, List.length_drop]
      simp only [MAX_CONVERSATION_HISTORY] at *
      omega

def sysHistory22 : List ChatMsg := ⟨"system", "p"⟩ :: List.replicate 21 ⟨"user", "m"⟩

def userMsgY : ChatMsg := ⟨"user", "y"⟩

def asstMsgZ : ChatMsg := ⟨"assistant", "z"⟩

theorem append_trim_invariant_witness :
    (appendAndTrim sysHistory22 userMsgY asstMsgZ).length ≤
      MAX_CONVERSATION_HISTORY ∧
    (appendAndTrim sysHistory22 userMsgY asstMsgZ).head? = sysHistory22.head? ∧
    (appendAndTrim sysHistory22 userMsgY asstMsgZ).length =
      MAX_CONVERSATION_HISTORY :=
  ⟨(append_trim_invariant sysHistory22 userMsgY asstMsgZ (by decide)).1,
   ((append_trim_invariant sysHistory22 userMsgY asstMsgZ (by decide)).2.2
     (by decide)).1,
   ((append_trim_invariant sysHistory22 userMsgY asstMsgZ (by decide)).2.2
     (by decide)).2⟩

/-! ## Update deduplication store (bot.py: webhook_handler).  The Python
dict `processed_updates` is a finite map from update-id strings to either a
legacy boolean or a record `{timestamp, status?, error?}`; it is embedded
pointwise as a partial function. -/

def PROCESSED_UPDATES_EXPIRY : Nat := 3600

inductive UpdStatus where
  | processing
  | completed
  | error (msg : String)
deriving DecidableEq

structure UpdRecord where
  timestamp : Nat
  status : Option UpdStatus
deriving DecidableEq

inductive StoreVal where
  | legacy (b : Bool)
  | entry (r : UpdRecord)
deriving DecidableEq

def UpdStore : Type := String → Option StoreVal

def emptyUpdStore : UpdStore := fun _ => none

inductive ClaimResult where
  | Proceed
  | AlreadyProcessing
  | AlreadyDone
deriving DecidableEq

/-- webhook_handler lines 403-414: the cleanup pass.  Record entries whose
timestamp is older than `PROCESSED_UPDATES_EXPIRY` are deleted; a legacy
`True` value is rewritten to a fresh record with the current timestamp and
no status; a legacy `False` is left as it is.  Each key is treated
independently, which matches the per-key dict iteration. -/
def sweep (store : UpdStore) (now : Nat) : UpdStore :=
  fun k =>
    match store k with
    | some (.entry r) =>
        if now - r.timestamp > PROCESSED_UPDATES_EXPIRY then none else some (.entry r)
    | some (.legacy b) => if b then some (.entry ⟨now, none⟩) else some (.legacy b)
    | none => none

/-- webhook_handler lines 417-437: the claim step.  A missing key is
created as `{timestamp := now, status := processing}` with result Proceed;
an existing record whose status is `processing` yields AlreadyProcessing;
any other existing value (record with another or no status, or a legacy
boolean) yields AlreadyDone.  The store is unchanged except on the fresh
claim. -/
def claimUpdate (store : UpdStore) (uid : String) (now : Nat) : ClaimResult × UpdStore :=
  match store uid with
  | none =>
      (.Proceed,
       fun k => if k = uid then some (.entry ⟨now, some .processing⟩) else store k)
  | some (.entry r) =>
      if r.status = some .processing then (.AlreadyProcessing, store)
      else (.AlreadyDone, store)
  | some (.legacy _) => (.AlreadyDone, store)

/-- webhook_handler lines 443-458: after processing, the record is
overwritten with status `completed`; if the processing raised an exception,
it is overwritten with status `error` and the message. -/
def finalizeUpdate (store : UpdStore) (uid : String) (now : Nat)
    (raised : Bool) (msg : String) : UpdStore :=
  fun k =>
    if k = uid then
      some (.entry (if raised then ⟨now, some (.error msg)⟩ else ⟨now, some .completed⟩))
    else store k

/-! ## Theorems: deduplication claims -/

/-- C2: a first claim on an unseen identifier creates a processing record
with the current timestamp and returns Proceed; within the TTL window a
subsequent sweep-then-claim returns AlreadyProcessing; any claim on a key
that already holds a value never returns Proceed, and a record whose status
is not `processing` yields AlreadyDone. -/
theorem claim_at_most_one_proceed (store : UpdStore) (uid : String) (now now2 : Nat)
    (hfresh : store uid = none) (httl : now2 - now ≤ PROCESSED_UPDATES_EXPIRY) :
    (claimUpdate store uid now).1 = .Proceed ∧
    (claimUpdate store uid now).2 uid = some (.entry ⟨now, some .processing⟩) ∧
    (claimUpdate (sweep (claimUpdate store uid now).2 now2) uid now2).1 =
      .AlreadyProcessing ∧
    (∀ (s : UpdStore) (v : StoreVal) (t : Nat), s uid = some v →
      (claimUpdate s uid t).1 ≠ .Proceed) ∧
    (∀ (s : UpdStore) (r : UpdRecord) (t : Nat), s uid = some (.entry r) →
      r.status ≠ some .processing → (claimUpdate s uid t).1 = .AlreadyDone) := by
  have h1 : claimUpdate store uid now =
      (.Proceed, fun k => if k = uid then some (.entry ⟨now, some .processing⟩) else store k) := by
    simp [claimUpdate, hfresh]
  refine ⟨by rw [h1], by rw [h1]; simp, ?_, ?_, ?_⟩
  · rw [h1]
    have hs : sweep (fun k => if k = uid then some (.entry ⟨now, some .processing⟩) else store k)
        now2 uid = some (.entry ⟨now, some .processing⟩) := by
      simp [sweep, Nat.not_lt.mpr httl]
    simp [claimUpdate, hs]
  · intro s v t hv
    match v with
    | .legacy b => simp [claimUpdate, hv]
    | .entry r =>
        by_cases hst : r.status = some .processing
        · simp [claimUpdate, hv, hst]
        · simp [claimUpdate, hv, hst]
  · intro s r t hv hst
    simp [claimUpdate, hv, hst]

theorem claim_at_most_one_proceed_witness :
    (claimUpdate emptyUpdStore "7" 100).1 = .Proceed ∧
    (claimUpdate emptyUpdStore "7" 100).2 "7" =
      some (.entry ⟨100, some .processing⟩) ∧
    (claimUpdate (sweep (claimUpdate emptyUpdStore "7" 100).2 200) "7" 200).1 =
      .AlreadyProcessing ∧
    (claimUpdate (fun k => if k = "7" then
        some (.entry ⟨3, some .completed⟩) else none) "7" 50).1 ≠ .Proceed ∧
    (claimUpdate (fun k => if k = "7" then
        some (.entry ⟨3, some .completed⟩) else none) "7" 50).1 = .AlreadyDone :=
  ⟨(claim_at_most_one_proceed emptyUpdStore "7" 100 200 rfl (by decide)).1,
   (claim_at_most_one_proceed emptyUpdStore "7" 100 200 rfl (by decide)).2.1,
   (claim_at_most_one_proceed emptyUpdStore "7" 100 200 rfl (by decide)).2.2.1,
   (claim_at_most_one_proceed emptyUpdStore "7" 100 200 rfl
     (by decide)).2.2.2.1 _ (.entry ⟨3, some .completed⟩) 50 (by simp),
   (claim_at_most_one_proceed emptyUpdStore "7" 100 200 rfl
     (by decide)).2.2.2.2 _ ⟨3, some .completed⟩ 50 (by simp) (by decide)⟩

/-- C7: a sweep removes exactly the records strictly older than the expiry
relative to the sweep time, after which a claim on that identifier proceeds
again; sweeping twice at the same time changes nothing. -/
theorem sweep_expiry (store : UpdStore) (now : Nat) (uid : String) (r : UpdRecord)
    (h : store uid = some (.entry r)) :
    (now - r.timestamp > PROCESSED_UPDATES_EXPIRY →
      sweep store now uid = none ∧
      (claimUpdate (sweep store now) uid now).1 = .Proceed) ∧
    (now - r.timestamp ≤ PROCESSED_UPDATES_EXPIRY →
      sweep store now uid = some (.entry r)) ∧
    sweep (sweep store now) now = sweep store now := by
  refine ⟨?_, ?_, ?_⟩
  · intro hold
    have hdel : sweep store now uid = none := by simp [sweep, h, hold]
    exact ⟨hdel, by simp [claimUpdate, hdel]⟩
  · intro hyoung
    simp [sweep, h, Nat.not_lt.mpr hyoung]
  · funext k
    match hk : store k with
    | none => simp [sweep, hk]
    | some (.legacy b) =>
        match b with
        | true => simp [sweep, hk]
        | false => simp [sweep, hk]
    | some (.entry q) =>
        by_cases hq : now - q.timestamp > PROCESSED_UPDATES_EXPIRY
        · simp [sweep, hk, hq]
        · simp [sweep, hk, hq]

theorem sweep_expiry_witness :
    sweep (fun k => if k = "9" then
      some (.entry ⟨10, some .completed⟩) else none) 5000 "9" = none ∧
    (claimUpdate (sweep (fun k => if k = "9" then
      some (.entry ⟨10, some .completed⟩) else none) 5000) "9" 5000).1 =
      .Proceed ∧
    sweep (sweep (fun k => if k = "9" then
        some (.entry ⟨10, some .completed⟩) else none) 5000) 5000 =
      sweep (fun k => if k = "9" then
        some (.entry ⟨10, some .completed⟩) else none) 5000 ∧
    sweep (fun k => if k = "9" then
      some (.entry ⟨10, some .completed⟩) else none) 3000 "9" =
      some (.entry ⟨10, some .completed⟩) :=
  ⟨((sweep_expiry _ 5000 "9" ⟨10, some .completed⟩ (by simp)).1 (by decide)).1,
   ((sweep_expiry _ 5000 "9" ⟨10, some .completed⟩ (by simp)).1 (by decide)).2,
   (sweep_expiry _ 5000 "9" ⟨10, some .completed⟩ (by simp)).2.2,
   (sweep_expiry _ 3000 "9" ⟨10, some .completed⟩ (by simp)).2.1 (by decide)⟩

/-! ## Markdown sanitizer (bot.py: markdown_to_telegram_html).

The Python function is a pipeline of regex substitutions followed by an
explicit stack-based validation loop and a final escaping pass.  Each
specific regex is embedded as a left-to-right scanner with exactly the
backtracking behaviour of the Python pattern on that pass.  Text is a
`List Char`. -/

/-- The suffix after the first `'>'`, if any (`str.find('>', i)` then skip). -/
def splitAfterGt : List Char → Option (List Char)
  | [] => none
  | c :: rest => if c = '>' then some rest else splitAfterGt rest


theorem splitAfterGt_some_length : ∀ {l t : List Char}, splitAfterGt l = some t →
    t.length < l.length
  | [], t, h => by simp [splitAfterGt] at h
  | c :: rest, t, h => by
      by_cases hc : c = '>'
      · simp [splitAfterGt, hc] at h
        subst h
        simp [List.length_cons]
      · simp [splitAfterGt, hc] at h
        have := splitAfterGt_some_length h
        simp [List.length_cons]
        omega

theorem splitAfterGt_none {l : List Char} (h : ('>' : Char) ∉ l) :
    splitAfterGt l = none := by
  induction l with
  | nil => rfl
  | cons c rest ih =>
      simp at h
      simp [splitAfterGt, Ne.symm h.1, ih h.2]

/-- Pass 1, `re.sub(r'<[^>]+>', '', text)`: at each `<`, the regex matches
iff a later `>` exists with at least one character in between, and then
removes through the first such `>`; a `<` immediately followed by `>` or
with no later `>` is left in place and scanning continues. -/
def stripHtmlTags : List Char → List Char
  | [] => []
  | c :: rest =>
    if c = '<' then
      if rest.head? = some '>' then c :: '>' :: stripHtmlTags rest.tail
      else
        match h : splitAfterGt rest with
        | some t => stripHtmlTags t
        | none => c :: stripHtmlTags rest
    else c :: stripHtmlTags rest
termination_by l => l.length
decreasing_by
· cases rest with
  | nil => simp at *
  | cons a b => simp [List.length_cons]; omega
· have := splitAfterGt_some_length h
  simp [List.length_cons]
  omega
· simp [List.length_cons]
· simp [List.length_cons]

def isLowerAZ (c : Char) : Bool := 'a' ≤ c && c ≤ 'z'

/-- `[a-z]+>` after at least one letter has been consumed: accept at the
first `>`, keep consuming letters, otherwise fail. -/
def gtAfterLetters : List Char → Bool
  | [] => false
  | c :: rest => if c = '>' then true else isLowerAZ c && gtAfterLetters rest

/-- `[a-z]+>`: a nonempty run of lowercase letters followed by `>`. -/
def lettersThenGt : List Char → Bool
  | [] => false
  | c :: rest => isLowerAZ c && gtAfterLetters rest

/-- The lookahead `[/]?[a-z]+>` of pass 2, applied to the text after a `<`. -/
def ltLookahead (r : List Char) : Bool :=
  if r.head? = some '/' then lettersThenGt r.tail else lettersThenGt r

/-- Pass 2, `re.sub(r'<(?![/]?[a-z]+>)', '&lt;', text)`: each `<` whose
lookahead fails becomes `&lt;`. -/
def escapeBareLt : List Char → List Char
  | [] => []
  | c :: rest =>
    if c = '<' then
      if ltLookahead rest then c :: escapeBareLt rest
      else '&' :: 'l' :: 't' :: ';' :: escapeBareLt rest
    else c :: escapeBareLt rest

/-- First occurrence of the pattern anywhere in the text: the part before it
and the part after it (`(.*?)pat` with DOTALL). -/
def splitSub (pat : List Char) : List Char → Option (List Char × List Char)
  | [] => if pat.isPrefixOf ([] : List Char) then some ([], []) else none
  | c :: rest =>
    if pat.isPrefixOf (c :: rest) then some ([], (c :: rest).drop pat.length)
    else (splitSub pat rest).map (fun p => (c :: p.1, p.2))

/-- First occurrence of the pattern before any newline (`(.*?)pat` without
DOTALL: `.` does not match a newline). -/
def splitSubNoNl (pat : List Char) : List Char → Option (List Char × List Char)
  | [] => none
  | c :: rest =>
    if pat.isPrefixOf (c :: rest) then some ([], (c :: rest).drop pat.length)
    else if c = '\n' then none
    else (splitSubNoNl pat rest).map (fun p => (c :: p.1, p.2))

theorem splitSub_some_length {pat : List Char} :
    ∀ {l a b : List Char}, splitSub pat l = some (a, b) →
      a.length + pat.length + b.length = l.length
  | [], a, b, h => by
      by_cases hp : pat.isPrefixOf ([] : List Char)
      · have hpat : pat = [] := by
          cases pat with
          | nil => rfl
          | cons x xs => simp [List.isPrefixOf] at hp
        simp only [splitSub, if_pos hp, Option.some.injEq, Prod.mk.injEq] at h
        obtain ⟨ha, hb⟩ := h
        subst ha; subst hb
        simp [hpat]
      · simp [splitSub, hp] at h
  | c :: rest, a, b, h => by
      by_cases hp : pat.isPrefixOf (c :: rest)
      · have hle : pat.length ≤ (c :: rest).length :=
          (List.isPrefixOf_iff_prefix.mp hp).length_le
        simp only [splitSub, if_pos hp, Option.some.injEq, Prod.mk.injEq] at h
        obtain ⟨ha, hb⟩ := h
        subst ha; subst hb
        simp only [List.length_drop, List.length_nil, List.length_cons] at *
        omega
      · simp only [splitSub, if_neg hp, Option.map_eq_some'] at h
        obtain ⟨⟨a1, b1⟩, hsp, heq⟩ := h
        simp only [Prod.mk.injEq] at heq
        obtain ⟨ha, hb⟩ := heq
        subst ha; subst hb
        have := splitSub_some_length hsp
        simp only [List.length_cons]
        omega

theorem splitSubNoNl_some_length {pat : List Char} :
    ∀ {l a b : List Char}, splitSubNoNl pat l = some (a, b) →
      a.length + pat.length + b.length = l.length
  | [], a, b, h => by simp [splitSubNoNl] at h
  | c :: rest, a, b, h => by
      by_cases hp : pat.isPrefixOf (c :: rest)
      · have hle : pat.length ≤ (c :: rest).length :=
          (List.isPrefixOf_iff_prefix.mp hp).length_le
        simp only [splitSubNoNl, if_pos hp, Option.some.injEq, Prod.mk.injEq] at h
        obtain ⟨ha, hb⟩ := h
        subst ha; subst hb
        simp only [List.length_drop, List.length_nil, List.length_cons] at *
        omega
      · by_cases hnl : c = '\n'
        · subst hnl
          simp [splitSubNoNl, hp] at h
        · simp only [splitSubNoNl, if_neg hp, if_neg hnl, Option.map_eq_some'] at h
          obtain ⟨⟨a1, b1⟩, hsp, heq⟩ := h
          simp only [Prod.mk.injEq] at heq
          obtain ⟨ha, hb⟩ := heq
          subst ha; subst hb
          have := splitSubNoNl_some_length hsp
          simp only [List.length_cons]
          omega

/-- Pass 3a, ``re.sub(r'```.*?\n(.*?)```', r'<pre>\1</pre>', text, DOTALL)``:
at a fence the match takes the first newline after it and the first closing
fence after that newline; the language hint line and the fences are
dropped, the body is wrapped in a pre element.  On failure the scan
advances one character, as the regex engine does. -/
def convFences : List Char → List Char
  | [] => []
  | c :: rest =>
    if ['`', '`', '`'].isPrefixOf (c :: rest) then
      match hnl : splitSub ['\n'] ((c :: rest).drop 3) with
      | none => c :: convFences rest
      | some (_, afterNl) =>
        match hcl : splitSub ['`', '`', '`'] afterNl with
        | none => c :: convFences rest
        | some (mid, after) =>
            '<' :: 'p' :: 'r' :: 'e' :: '>' ::
              (mid ++ '<' :: '/' :: 'p' :: 'r' :: 'e' :: '>' :: convFences after)
    else c :: convFences rest
termination_by l => l.length
decreasing_by
· simp [List.length_cons]
· simp [List.length_cons]
· have h1 := splitSub_some_length hnl
  have h2 := splitSub_some_length hcl
  simp only [List.length_drop, List.length_cons, List.length_nil] at h1 h2 ⊢
  omega
· simp [List.length_cons]

/-- Passes 3b and 4, the shared shape of ``re.sub(r'D(.*?)D', r'P\1Q', text)``
for a delimiter D of identical opening and closing spelling, without the
DOTALL flag: at a delimiter occurrence the closing delimiter is searched
before the next newline; the body is copied between the replacement tags;
otherwise the scan advances one character. -/
def convPair (d0 : Char) (dr pre post : List Char) : List Char → List Char
  | [] => []
  | c :: rest =>
    if (d0 :: dr).isPrefixOf (c :: rest) then
      match h : splitSubNoNl (d0 :: dr) ((c :: rest).drop (d0 :: dr).length) with
      | some (mid, after) =>
          pre ++ mid ++ post ++ convPair d0 dr pre post after
      | none => c :: convPair d0 dr pre post rest
    else c :: convPair d0 dr pre post rest
termination_by l => l.length
decreasing_by
· have h1 := splitSubNoNl_some_length h
  simp only [List.length_drop, List.length_cons] at h1 ⊢
  omega
· simp [List.length_cons]
· simp [List.length_cons]

def convInlineCode : List Char → List Char :=
  convPair '`' []
    ('<' :: 'c' :: 'o' :: 'd' :: 'e' :: '>' :: [])
    ('<' :: '/' :: 'c' :: 'o' :: 'd' :: 'e' :: '>' :: [])

def convBoldItalic : List Char → List Char :=
  convPair '*' ['*', '*']
    ('<' :: 'b' :: '>' :: '<' :: 'i' :: '>' :: [])
    ('<' :: '/' :: 'i' :: '>' :: '<' :: '/' :: 'b' :: '>' :: [])

def convBold : List Char → List Char :=
  convPair '*' ['*'] ('<' :: 'b' :: '>' :: []) ('<' :: '/' :: 'b' :: '>' :: [])

def convItalic : List Char → List Char :=
  convPair '*' [] ('<' :: 'i' :: '>' :: []) ('<' :: '/' :: 'i' :: '>' :: [])

def convStrike : List Char → List Char :=
  convPair '~' ['~'] ('<' :: 's' :: '>' :: []) ('<' :: '/' :: 's' :: '>' :: [])

theorem length_dropWhile_le_self (p : Char → Bool) (l : List Char) :
    (l.dropWhile p).length ≤ l.length :=
  (List.dropWhile_suffix p).length_le

theorem dropWhile_length_lt_of_take {p : Char → Bool} {l : List Char}
    (h : l.takeWhile p ≠ []) : (l.dropWhile p).length < l.length := by
  cases l with
  | nil => simp at h
  | cons c rest =>
      by_cases hc : p c
      · rw [List.dropWhile_cons_of_pos hc]
        exact Nat.lt_succ_of_le (length_dropWhile_le_self p rest)
      · rw [List.takeWhile_cons_of_neg hc] at h
        simp at h

/-- Pass 5, `re.sub(r'^#+\s+(.*?)$', r'<b>\1</b>', text, MULTILINE)`: at a
line start holding a `#` run followed by at least one whitespace character
(greedy `\s+`, which may swallow newlines), the lazy group extends to the
next newline or the end, and the whole match is replaced by a bold span.
The flag tracks whether the scan sits at a `^` position. -/
def hdrGo : List Char → Bool → List Char
  | [], _ => []
  | c :: rest, atStart =>
    if h : atStart = true ∧ c = '#' then
      if hws : ((c :: rest).dropWhile (fun x => x = '#')).takeWhile isPyWs = [] then
        c :: hdrGo rest false
      else
        '<' :: 'b' :: '>' ::
          ((((c :: rest).dropWhile (fun x => x = '#')).dropWhile
              isPyWs).takeWhile (fun x => x ≠ '\n') ++
            '<' :: '/' :: 'b' :: '>' ::
              hdrGo ((((c :: rest).dropWhile (fun x => x = '#')).dropWhile
                isPyWs).dropWhile (fun x => x ≠ '\n')) false)
    else c :: hdrGo rest (c == '\n')
termination_by l _ => l.length
decreasing_by
· simp [List.length_cons]
· rcases h with ⟨-, hc⟩
  have h1 : (c :: rest).dropWhile (fun x => x = '#') =
      rest.dropWhile (fun x => x = '#') := by
    rw [List.dropWhile_cons_of_pos]
    simp [hc]
  rw [h1] at hws ⊢
  have h2 : ((rest.dropWhile (fun x => x = '#')).dropWhile isPyWs).length <
      (rest.dropWhile (fun x => x = '#')).length := dropWhile_length_lt_of_take hws
  have h3 : (rest.dropWhile (fun x => x = '#')).length ≤ rest.length :=
    length_dropWhile_le_self _ rest
  have h4 := length_dropWhile_le_self (fun x => decide (x ≠ '\n'))
      ((rest.dropWhile (fun x => x = '#')).dropWhile isPyWs)
  simp only [List.length_cons] at *
  omega
· simp [List.length_cons]

def convHeaders (l : List Char) : List Char := hdrGo l true

/-! ### Pass 7: the stack-based tag validation loop, and pass 8: final
escaping. -/

inductive Tg where
  | b
  | i
  | s
  | code
  | pre
deriving DecidableEq

inductive Tok where
  | opn (t : Tg)
  | cls (t : Tg)
deriving DecidableEq

def openChars : Tg → List Char
  | .b => ['<', 'b', '>']
  | .i => ['<', 'i', '>']
  | .s => ['<', 's', '>']
  | .code => ['<', 'c', 'o', 'd', 'e', '>']
  | .pre => ['<', 'p', 'r', 'e', '>']

def closeChars : Tg → List Char
  | .b => ['<', '/', 'b', '>']
  | .i => ['<', '/', 'i', '>']
  | .s => ['<', '/', 's', '>']
  | .code => ['<', '/', 'c', 'o', 'd', 'e', '>']
  | .pre => ['<', '/', 'p', 'r', 'e', '>']

def tokChars : Tok → List Char
  | .opn t => openChars t
  | .cls t => closeChars t

/-- The ten spellings tested by the validation loop's `startswith` chain,
in the order the Python code tests them. -/
def allToks : List Tok :=
  [.opn .b, .opn .i, .opn .s, .opn .code, .opn .pre,
   .cls .b, .cls .i, .cls .s, .cls .code, .cls .pre]

/-- Recognise one of the ten exact tag spellings the validation loop tests
with `startswith`, returning the token and the rest of the text.  The
spellings are pairwise prefix-free, so at most one test can succeed. -/
def readTag? (l : List Char) : Option (Tok × List Char) :=
  allToks.findSome? fun tok =>
    if (tokChars tok).isPrefixOf l then some (tok, l.drop (tokChars tok).length)
    else none

theorem readTag?_eq_some {l : List Char} {tok : Tok} {t : List Char}
    (h : readTag? l = some (tok, t)) : l = tokChars tok ++ t := by
  obtain ⟨tok2, -, hf⟩ := List.exists_of_findSome?_eq_some h
  by_cases hp : (tokChars tok2).isPrefixOf l
  · rw [if_pos hp] at hf
    simp only [Option.some.injEq, Prod.mk.injEq] at hf
    obtain ⟨rfl, rfl⟩ := hf
    obtain ⟨suf, rfl⟩ := List.isPrefixOf_iff_prefix.mp hp
    simp
  · rw [if_neg hp] at hf
    exact absurd hf (by simp)

theorem tokChars_length_pos (tok : Tok) : 0 < (tokChars tok).length := by
  cases tok with
  | opn tg => cases tg <;> decide
  | cls tg => cases tg <;> decide

theorem readTag?_tokChars (tok : Tok) (t : List Char) :
    readTag? (tokChars tok ++ t) = some (tok, t) := by
  cases tok with
  | opn tg =>
      cases tg <;>
        simp [readTag?, allToks, tokChars, openChars, closeChars,
          List.findSome?, List.isPrefixOf]
  | cls tg =>
      cases tg <;>
        simp [readTag?, allToks, tokChars, openChars, closeChars,
          List.findSome?, List.isPrefixOf]

theorem readTag?_some_length {l : List Char} {tok : Tok} {t : List Char}
    (h : readTag? l = some (tok, t)) : t.length < l.length := by
  rw [readTag?_eq_some h]
  have := tokChars_length_pos tok
  simp only [List.length_append]
  omega

/-- Closing tags for everything left on the stack, innermost first
(the final `while stack: ... pop()` loop). -/
def closeAll : List Tg → List Char
  | [] => []
  | tg :: st => closeChars tg ++ closeAll st

/-- Pass 7 (bot.py lines 196-258): one left-to-right scan with a stack.
An opening tag is pushed and emitted; a closing tag matching the stack top
is popped and emitted; a closing tag that does not match is skipped up to
and including its `>` (for the five recognised spellings the first `>`
ends the tag itself, so this drops exactly the tag); any other text
starting with `</` is skipped through the next `>` when one exists;
otherwise the character is emitted.  At the end the stack is drained. -/
def validateGo : List Char → List Tg → List Char
  | [], st => closeAll st
  | c :: rest, st =>
    if c = '<' then
      match hr : readTag? (c :: rest) with
      | some (.opn tg, t) => openChars tg ++ validateGo t (tg :: st)
      | some (.cls tg, t) =>
          if st.head? = some tg then closeChars tg ++ validateGo t st.tail
          else validateGo t st
      | none =>
          if rest.head? = some '/' then
            match hgt : splitAfterGt (c :: rest) with
            | some t => validateGo t st
            | none => c :: validateGo rest st
          else c :: validateGo rest st
    else c :: validateGo rest st
termination_by l _ => l.length
decreasing_by
all_goals first
  | (have hh := readTag?_some_length hr; simp only [List.length_cons] at hh ⊢; omega)
  | (have hh := splitAfterGt_some_length hgt; simp only [List.length_cons] at hh ⊢; omega)
  | (simp only [List.length_cons]; omega)

def validateTags (l : List Char) : List Char := validateGo l []

def isWordChar (c : Char) : Bool := c.isAlphanum || c = '_'

/-- Case-insensitive match of a lowercase word, returning the consumed
characters as they appear in the text, and the rest. -/
def matchCI : List Char → List Char → Option (List Char × List Char)
  | [], l => some ([], l)
  | _ :: _, [] => none
  | w :: ws, c :: rest =>
      if c.toLower = w then (matchCI ws rest).map (fun p => (c :: p.1, p.2))
      else none

/-- The alternation `(b|i|s|a|code|pre)` of the final pattern; the six
words have pairwise distinct first letters, so at most one branch can
match and the python alternation order is immaterial. -/
def wordAlt? (l : List Char) : Option (List Char × List Char) :=
  match matchCI ['b'] l with
  | some p => some p
  | none =>
  match matchCI ['i'] l with
  | some p => some p
  | none =>
  match matchCI ['s'] l with
  | some p => some p
  | none =>
  match matchCI ['a'] l with
  | some p => some p
  | none =>
  match matchCI ['c', 'o', 'd', 'e'] l with
  | some p => some p
  | none => matchCI ['p', 'r', 'e'] l

/-- Split at the first `>`: the characters before it and the rest after it
(the `[^>]*>` tail of the final tag pattern). -/
def splitGt : List Char → Option (List Char × List Char)
  | [] => none
  | c :: rest =>
      if c = '>' then some ([], rest)
      else (splitGt rest).map (fun p => (c :: p.1, p.2))

/-- The `\b` word-boundary test after the tag word. -/
def boundaryOk (l : List Char) : Bool :=
  match l.head? with
  | some c => !(isWordChar c)
  | none => true

/-- Group 1 of the final pattern, `</?(b|i|s|a|code|pre)\b[^>]*>` with
IGNORECASE, applied to the text following a `<`: optional slash, one of
the six words case-insensitively, a word boundary, then anything up to and
including the first `>`.  Returns the consumed text (with the leading `<`)
and the rest. -/
def tag8After? (r1 : List Char) : Option (List Char × List Char) :=
  match wordAlt? (if r1.head? = some '/' then r1.tail else r1) with
  | none => none
  | some (w, r3) =>
      if boundaryOk r3 then
        match splitGt r3 with
        | none => none
        | some (attrs, t) =>
            some ('<' :: ((if r1.head? = some '/' then ['/'] else []) ++
              w ++ attrs ++ ['>']), t)
      else none

theorem matchCI_some_length {w : List Char} :
    ∀ {l a b : List Char}, matchCI w l = some (a, b) → b.length ≤ l.length := by
  induction w with
  | nil =>
      intro l a b h
      simp [matchCI] at h
      obtain ⟨-, rfl⟩ := h
      exact Nat.le_refl _
  | cons x xs ih =>
      intro l a b h
      cases l with
      | nil => simp [matchCI] at h
      | cons c rest =>
          by_cases hc : c.toLower = x
          · simp only [matchCI, if_pos hc, Option.map_eq_some'] at h
            obtain ⟨⟨a1, b1⟩, hm, heq⟩ := h
            simp only [Prod.mk.injEq] at heq
            have := ih hm
            simp [← heq.2, List.length_cons]
            omega
          · simp [matchCI, hc] at h

theorem wordAlt?_some_length {l a b : List Char} (h : wordAlt? l = some (a, b)) :
    b.length ≤ l.length := by
  unfold wordAlt? at h
  repeat' split at h
  all_goals first
    | exact matchCI_some_length h
    | (rename_i hm; exact matchCI_some_length (hm.trans h))
    | (rename_i p hm; exact matchCI_some_length (hm.trans h))

theorem splitGt_some_length :
    ∀ {l a b : List Char}, splitGt l = some (a, b) → b.length < l.length
  | [], a, b, h => by simp [splitGt] at h
  | c :: rest, a, b, h => by
      by_cases hc : c = '>'
      · simp [splitGt, hc] at h
        simp [← h.2, List.length_cons]
      · simp only [splitGt, if_neg hc, Option.map_eq_some'] at h
        obtain ⟨⟨a1, b1⟩, hm, heq⟩ := h
        simp only [Prod.mk.injEq] at heq
        have := splitGt_some_length hm
        simp only [← heq.2, List.length_cons]
        omega

theorem tag8After?_some_length {r1 cons t : List Char}
    (h : tag8After? r1 = some (cons, t)) : t.length ≤ r1.length := by
  unfold tag8After? at h
  split at h
  · exact absurd h (by simp)
  · rename_i w r3 hw
    have hr3 : r3.length ≤ r1.length := by
      have h1 := wordAlt?_some_length hw
      by_cases hsl : r1.head? = some '/'
      · rw [if_pos hsl] at h1
        have : r1.tail.length ≤ r1.length := by
          cases r1 <;> simp [List.length_cons]
        omega
      · rw [if_neg hsl] at h1
        exact h1
    split at h
    · split at h
      · exact absurd h (by simp)
      · rename_i attrs t2 hgt
        have := splitGt_some_length hgt
        have ht : t = t2 := by
          simp only [Option.some.injEq, Prod.mk.injEq] at h
          exact h.2.symm
        subst ht
        omega
    · exact absurd h (by simp)

/-- Pass 8 (bot.py lines 260-271): every `<`, `>` or `&` that is not part
of a group-1 tag match is replaced by its HTML entity (`html.escape`);
matched tags pass through verbatim. -/
def finalEscape : List Char → List Char
  | [] => []
  | c :: rest =>
    if c = '<' then
      match ht : tag8After? rest with
      | some (consumed, t) => consumed ++ finalEscape t
      | none => '&' :: 'l' :: 't' :: ';' :: finalEscape rest
    else if c = '>' then '&' :: 'g' :: 't' :: ';' :: finalEscape rest
    else if c = '&' then '&' :: 'a' :: 'm' :: 'p' :: ';' :: finalEscape rest
    else c :: finalEscape rest
termination_by l => l.length
decreasing_by
· have := tag8After?_some_length ht
  simp [List.length_cons]
  omega
· simp [List.length_cons]
· simp [List.length_cons]
· simp [List.length_cons]
· simp [List.length_cons]

/-- bot.py `markdown_to_telegram_html`: the full pipeline. -/
def markdown_to_telegram_html (l : List Char) : List Char :=
  finalEscape (validateTags (convHeaders (convStrike (convItalic (convBold
    (convBoldItalic (convInlineCode (convFences
      (escapeBareLt (stripHtmlTags l))))))))))

/-! ## The tag-balance property (claim C1)

`checkBalance` is the checker the claim describes: scan left to right with
a stack; every `<` must begin one of the ten recognised tag spellings; an
opening tag pushes, a closing tag must match the innermost open tag; the
stack must be empty at the end. -/

def checkBalance : List Char → List Tg → Bool
  | [], st => st.isEmpty
  | c :: rest, st =>
    if c = '<' then
      match hr : readTag? (c :: rest) with
      | some (.opn tg, t) => checkBalance t (tg :: st)
      | some (.cls tg, t) => if st.head? = some tg then checkBalance t st.tail else false
      | none => false
    else checkBalance rest st
termination_by l _ => l.length
decreasing_by
all_goals first
  | (have hh := readTag?_some_length hr; simp only [List.length_cons] at hh ⊢; omega)
  | (simp only [List.length_cons]; omega)

/-- The cleanly-tagged invariant: every `<` in the text begins one of the
ten exact tag spellings (and the scan resumes after that spelling). -/
def okT : List Char → Bool
  | [] => true
  | c :: rest =>
    if c = '<' then
      match hr : readTag? (c :: rest) with
      | some (_, t) => okT t
      | none => false
    else okT rest
termination_by l => l.length
decreasing_by
all_goals first
  | (have hh := readTag?_some_length hr; simp only [List.length_cons] at hh ⊢; omega)
  | (simp only [List.length_cons]; omega)

theorem checkBalance_nil (st : List Tg) : checkBalance [] st = st.isEmpty := by
  simp [checkBalance]

theorem checkBalance_cons_ne (c : Char) (rest : List Char) (st : List Tg)
    (h : ¬c = '<') : checkBalance (c :: rest) st = checkBalance rest st := by
  rw [checkBalance]
  simp [h]

/-- One checker step on a recognised token. -/
def cbStep (tok : Tok) (t : List Char) (st : List Tg) : Bool :=
  match tok with
  | .opn tg => checkBalance t (tg :: st)
  | .cls tg => if st.head? = some tg then checkBalance t st.tail else false

theorem checkBalance_read_some {rest : List Char} {tok : Tok} {t : List Char}
    (st : List Tg) (h : readTag? ('<' :: rest) = some (tok, t)) :
    checkBalance ('<' :: rest) st = cbStep tok t st := by
  unfold cbStep
  rw [checkBalance]
  simp only [reduceIte]
  split
  · rename_i tg t2 heq
    rw [h] at heq
    simp only [Option.some.injEq, Prod.mk.injEq] at heq
    obtain ⟨rfl, rfl⟩ := heq
    rfl
  · rename_i tg t2 heq
    rw [h] at heq
    simp only [Option.some.injEq, Prod.mk.injEq] at heq
    obtain ⟨rfl, rfl⟩ := heq
    rfl
  · rename_i heq
    rw [h] at heq
    exact absurd heq (by simp)

theorem okT_nil : okT [] = true := by simp [okT]

theorem okT_cons_ne (c : Char) (rest : List Char) (h : ¬c = '<') :
    okT (c :: rest) = okT rest := by
  rw [okT]
  simp [h]

theorem okT_read_some {rest : List Char} {tok : Tok} {t : List Char}
    (h : readTag? ('<' :: rest) = some (tok, t)) :
    okT ('<' :: rest) = okT t := by
  rw [okT]
  simp only [reduceIte]
  split
  · rename_i tok2 t2 heq
    rw [h] at heq
    simp only [Option.some.injEq, Prod.mk.injEq] at heq
    rw [heq.2]
  · rename_i heq
    rw [h] at heq
    exact absurd heq (by simp)

theorem okT_read_none {rest : List Char}
    (h : readTag? ('<' :: rest) = none) :
    okT ('<' :: rest) = false := by
  rw [okT]
  simp only [reduceIte]
  split
  · rename_i tok2 t2 heq
    rw [h] at heq
    exact absurd heq (by simp)
  · rfl

/-! ### Characters of the tag spellings, and basic `okT` facts -/

/-- The characters that occur in the ten tag spellings. -/
def spellChar (c : Char) : Bool :=
  c = '<' || c = '>' || c = '/' || c = 'b' || c = 'i' || c = 's' || c = 'c' ||
  c = 'o' || c = 'd' || c = 'e' || c = 'p' || c = 'r'

theorem bool_pred_ne {p : Char → Bool} {c d : Char}
    (h1 : p c = true) (h2 : p d = false) : c ≠ d := by
  intro he
  rw [he, h2] at h1
  cases h1

theorem spellChar_tokChars (tok : Tok) : ∀ c ∈ tokChars tok, spellChar c = true := by
  cases tok with
  | opn tg => cases tg <;> decide
  | cls tg => cases tg <;> decide

theorem tokChars_head (tok : Tok) : ∃ r, tokChars tok = '<' :: r := by
  cases tok with
  | opn tg => cases tg <;> exact ⟨_, rfl⟩
  | cls tg => cases tg <;> exact ⟨_, rfl⟩

theorem okT_tok (tok : Tok) (t : List Char) : okT (tokChars tok ++ t) = okT t := by
  obtain ⟨r, hr⟩ := tokChars_head tok
  have hread : readTag? ('<' :: (r ++ t)) = some (tok, t) := by
    rw [← List.cons_append, ← hr]
    exact readTag?_tokChars tok t
  rw [hr, List.cons_append]
  exact okT_read_some hread

theorem checkBalance_tok (tok : Tok) (t : List Char) (st : List Tg) :
    checkBalance (tokChars tok ++ t) st = cbStep tok t st := by
  obtain ⟨r, hr⟩ := tokChars_head tok
  have hread : readTag? ('<' :: (r ++ t)) = some (tok, t) := by
    rw [← List.cons_append, ← hr]
    exact readTag?_tokChars tok t
  rw [hr, List.cons_append]
  exact checkBalance_read_some st hread

/-- `okT` inversion at a `<`. -/
theorem okT_lt_inv {rest : List Char} (h : okT ('<' :: rest) = true) :
    ∃ tok t, readTag? ('<' :: rest) = some (tok, t) ∧ okT t = true ∧
      '<' :: rest = tokChars tok ++ t := by
  match hr : readTag? ('<' :: rest) with
  | some (tok, t) =>
      refine ⟨tok, t, rfl, ?_, readTag?_eq_some hr⟩
      rw [okT_read_some hr] at h
      exact h
  | none =>
      rw [okT_read_none hr] at h
      cases h

theorem okT_plain_append {x y : List Char} (hx : ∀ c ∈ x, ¬c = '<') :
    okT (x ++ y) = okT y := by
  induction x with
  | nil => simp
  | cons c rest ih =>
      rw [List.cons_append, okT_cons_ne c _ (hx c (by simp))]
      exact ih fun d hd => hx d (by simp [hd])

theorem noLt_okT {l : List Char} (h : ('<' : Char) ∉ l) : okT l = true := by
  induction l with
  | nil => exact okT_nil
  | cons c rest ih =>
      simp at h
      rw [okT_cons_ne c rest (fun he => h.1 he.symm)]
      exact ih h.2

theorem okT_append_aux :
    ∀ n, ∀ a b : List Char, a.length ≤ n → okT a = true → okT b = true →
      okT (a ++ b) = true := by
  intro n
  induction n with
  | zero =>
      intro a b hla ha hb
      have hnil : a = [] := List.eq_nil_of_length_eq_zero (by omega)
      subst hnil
      simpa using hb
  | succ n ih =>
      intro a b hla ha hb
      match a with
      | [] => simpa using hb
      | c :: rest =>
          by_cases hc : c = '<'
          · subst hc
            obtain ⟨tok, t, hr, ht, heq⟩ := okT_lt_inv ha
            rw [heq, List.append_assoc, okT_tok]
            have hlt := readTag?_some_length hr
            simp only [List.length_cons] at hla hlt
            exact ih t b (by omega) ht hb
          · rw [okT_cons_ne c rest hc] at ha
            rw [List.cons_append, okT_cons_ne c _ hc]
            simp only [List.length_cons] at hla
            exact ih rest b (by omega) ha hb

theorem okT_append {a b : List Char} (ha : okT a = true) (hb : okT b = true) :
    okT (a ++ b) = true :=
  okT_append_aux a.length a b (Nat.le_refl _) ha hb

theorem okT_dropWhile_plain {p : Char → Bool} (hp : ∀ c, p c = true → ¬c = '<') :
    ∀ {l : List Char}, okT l = true → okT (l.dropWhile p) = true := by
  intro l
  induction l with
  | nil => intro h; simpa using h
  | cons c rest ih =>
      intro h
      by_cases hc : p c
      · rw [List.dropWhile_cons_of_pos hc]
        have hne := hp c hc
        rw [okT_cons_ne c rest hne] at h
        exact ih h
      · rw [List.dropWhile_cons_of_neg hc]
        exact h

/-! ### The splitters respect the cleanly-tagged invariant -/

theorem isPrefixOf_cons_ne {d0 c : Char} {dr rest : List Char} (h : ¬c = d0) :
    (d0 :: dr).isPrefixOf (c :: rest) = false := by
  simp [List.isPrefixOf]
  intro he
  exact absurd he.symm h

theorem splitSub_append_of_ne {d0 : Char} {dr : List Char} :
    ∀ {x y : List Char}, (∀ c ∈ x, ¬c = d0) →
      splitSub (d0 :: dr) (x ++ y) =
        (splitSub (d0 :: dr) y).map (fun p => (x ++ p.1, p.2)) := by
  intro x
  induction x with
  | nil =>
      intro y _
      cases h : splitSub (d0 :: dr) y with
      | none => simp [h]
      | some p => simp [h]
  | cons c x2 ih =>
      intro y hx
      have hc : ¬c = d0 := hx c (by simp)
      rw [List.cons_append, splitSub, isPrefixOf_cons_ne hc]
      simp only [Bool.false_eq_true, if_false]
      rw [ih fun d hd => hx d (by simp [hd])]
      cases h : splitSub (d0 :: dr) y with
      | none => simp
      | some p => simp

theorem splitSubNoNl_append_of_ne {d0 : Char} {dr : List Char} :
    ∀ {x y : List Char}, (∀ c ∈ x, ¬c = d0 ∧ ¬c = '\n') →
      splitSubNoNl (d0 :: dr) (x ++ y) =
        (splitSubNoNl (d0 :: dr) y).map (fun p => (x ++ p.1, p.2)) := by
  intro x
  induction x with
  | nil =>
      intro y _
      cases h : splitSubNoNl (d0 :: dr) y with
      | none => simp [h]
      | some p => simp [h]
  | cons c x2 ih =>
      intro y hx
      have hc := hx c (by simp)
      rw [List.cons_append, splitSubNoNl, isPrefixOf_cons_ne hc.1]
      simp only [Bool.false_eq_true, if_false, if_neg hc.2]
      rw [ih fun d hd => hx d (by simp [hd])]
      cases h : splitSubNoNl (d0 :: dr) y with
      | none => simp
      | some p => simp

theorem prefix_drop_eq {pat l : List Char} (h : pat.isPrefixOf l = true) :
    l = pat ++ l.drop pat.length := by
  obtain ⟨suf, rfl⟩ := List.isPrefixOf_iff_prefix.mp h
  simp

theorem spellChar_ne_of_false {c d : Char} (hc : spellChar c = true)
    (hd : spellChar d = false) : ¬c = d := bool_pred_ne hc hd

theorem spellChar_nl : spellChar '\n' = false := by decide

theorem splitSubNoNl_okT_aux {d0 : Char} {dr : List Char}
    (hd0 : spellChar d0 = false) (hdr : ∀ c ∈ dr, spellChar c = false) :
    ∀ n, ∀ l a b : List Char, l.length ≤ n → okT l = true →
      splitSubNoNl (d0 :: dr) l = some (a, b) → okT a = true ∧ okT b = true := by
  intro n
  induction n with
  | zero =>
      intro l a b hl _ hs
      have hnil : l = [] := List.eq_nil_of_length_eq_zero (by omega)
      subst hnil
      simp [splitSubNoNl] at hs
  | succ n ih =>
      intro l a b hl hok hs
      match l with
      | [] => simp [splitSubNoNl] at hs
      | c :: rest =>
          by_cases hp : (d0 :: dr).isPrefixOf (c :: rest)
          · rw [splitSubNoNl, if_pos hp] at hs
            simp only [Option.some.injEq, Prod.mk.injEq] at hs
            obtain ⟨rfl, rfl⟩ := hs
            refine ⟨okT_nil, ?_⟩
            have hd : okT ((d0 :: dr) ++ (c :: rest).drop (d0 :: dr).length) = true := by
              rw [← prefix_drop_eq hp]
              exact hok
            rw [okT_plain_append (x := d0 :: dr)] at hd
            · exact hd
            · intro e he
              simp at he
              rcases he with rfl | he
              · intro he2
                rw [he2] at hd0
                exact absurd hd0 (by decide)
              · intro he2
                have hh := hdr e he
                rw [he2] at hh
                exact absurd hh (by decide)
          · by_cases hc : c = '<'
            · subst hc
              obtain ⟨tok, t, hr, ht, heq⟩ := okT_lt_inv hok
              rw [heq] at hs
              rw [splitSubNoNl_append_of_ne (x := tokChars tok)] at hs
              · cases hsp : splitSubNoNl (d0 :: dr) t with
                | none => rw [hsp] at hs; exact absurd hs (by simp)
                | some p =>
                    rw [hsp] at hs
                    simp only [Option.map_some', Option.some.injEq, Prod.mk.injEq] at hs
                    obtain ⟨ha, rfl⟩ := hs
                    have hlt := readTag?_some_length hr
                    simp only [List.length_cons] at hl hlt
                    obtain ⟨h1, h2⟩ := ih t p.1 p.2 (by omega) ht (by rw [hsp])
                    refine ⟨?_, h2⟩
                    rw [← ha, okT_tok]
                    exact h1
              · intro e he
                have hsp := spellChar_tokChars tok e he
                exact ⟨spellChar_ne_of_false hsp hd0,
                       spellChar_ne_of_false hsp spellChar_nl⟩
            · have hnl : ¬c = '\n' := by
                intro he
                rw [splitSubNoNl, if_neg hp, if_pos he] at hs
                exact absurd hs (by simp)
              rw [splitSubNoNl, if_neg hp, if_neg hnl] at hs
              cases hsp : splitSubNoNl (d0 :: dr) rest with
              | none => rw [hsp] at hs; exact absurd hs (by simp)
              | some p =>
                  rw [hsp] at hs
                  simp only [Option.map_some', Option.some.injEq, Prod.mk.injEq] at hs
                  obtain ⟨ha, rfl⟩ := hs
                  rw [okT_cons_ne c rest hc] at hok
                  simp only [List.length_cons] at hl
                  obtain ⟨h1, h2⟩ := ih rest p.1 p.2 (by omega) hok (by rw [hsp])
                  refine ⟨?_, h2⟩
                  rw [← ha, okT_cons_ne c p.1 hc]
                  exact h1

theorem splitSubNoNl_okT {d0 : Char} {dr : List Char} {l a b : List Char}
    (hd0 : spellChar d0 = false) (hdr : ∀ c ∈ dr, spellChar c = false)
    (hok : okT l = true) (hs : splitSubNoNl (d0 :: dr) l = some (a, b)) :
    okT a = true ∧ okT b = true :=
  splitSubNoNl_okT_aux hd0 hdr l.length l a b (Nat.le_refl _) hok hs

theorem splitSub_okT_aux {d0 : Char} {dr : List Char}
    (hd0 : spellChar d0 = false) (hdr : ∀ c ∈ dr, spellChar c = false) :
    ∀ n, ∀ l a b : List Char, l.length ≤ n → okT l = true →
      splitSub (d0 :: dr) l = some (a, b) → okT a = true ∧ okT b = true := by
  intro n
  induction n with
  | zero =>
      intro l a b hl _ hs
      have hnil : l = [] := List.eq_nil_of_length_eq_zero (by omega)
      subst hnil
      simp [splitSub, List.isPrefixOf] at hs
  | succ n ih =>
      intro l a b hl hok hs
      match l with
      | [] => simp [splitSub, List.isPrefixOf] at hs
      | c :: rest =>
          by_cases hp : (d0 :: dr).isPrefixOf (c :: rest)
          · rw [splitSub, if_pos hp] at hs
            simp only [Option.some.injEq, Prod.mk.injEq] at hs
            obtain ⟨rfl, rfl⟩ := hs
            refine ⟨okT_nil, ?_⟩
            have hd : okT ((d0 :: dr) ++ (c :: rest).drop (d0 :: dr).length) = true := by
              rw [← prefix_drop_eq hp]
              exact hok
            rw [okT_plain_append (x := d0 :: dr)] at hd
            · exact hd
            · intro e he
              simp at he
              rcases he with rfl | he
              · intro he2
                rw [he2] at hd0
                exact absurd hd0 (by decide)
              · intro he2
                have hh := hdr e he
                rw [he2] at hh
                exact absurd hh (by decide)
          · by_cases hc : c = '<'
            · subst hc
              obtain ⟨tok, t, hr, ht, heq⟩ := okT_lt_inv hok
              rw [heq] at hs
              rw [splitSub_append_of_ne (x := tokChars tok)] at hs
              · cases hsp : splitSub (d0 :: dr) t with
                | none => rw [hsp] at hs; exact absurd hs (by simp)
                | some p =>
                    rw [hsp] at hs
                    simp only [Option.map_some', Option.some.injEq, Prod.mk.injEq] at hs
                    obtain ⟨ha, rfl⟩ := hs
                    have hlt := readTag?_some_length hr
                    simp only [List.length_cons] at hl hlt
                    obtain ⟨h1, h2⟩ := ih t p.1 p.2 (by omega) ht (by rw [hsp])
                    refine ⟨?_, h2⟩
                    rw [← ha, okT_tok]
                    exact h1
              · intro e he
                exact spellChar_ne_of_false (spellChar_tokChars tok e he) hd0
            · rw [splitSub, if_neg hp] at hs
              cases hsp : splitSub (d0 :: dr) rest with
              | none => rw [hsp] at hs; exact absurd hs (by simp)
              | some p =>
                  rw [hsp] at hs
                  simp only [Option.map_some', Option.some.injEq, Prod.mk.injEq] at hs
                  obtain ⟨ha, rfl⟩ := hs
                  rw [okT_cons_ne c rest hc] at hok
                  simp only [List.length_cons] at hl
                  obtain ⟨h1, h2⟩ := ih rest p.1 p.2 (by omega) hok (by rw [hsp])
                  refine ⟨?_, h2⟩
                  rw [← ha, okT_cons_ne c p.1 hc]
                  exact h1

theorem splitSub_okT {d0 : Char} {dr : List Char} {l a b : List Char}
    (hd0 : spellChar d0 = false) (hdr : ∀ c ∈ dr, spellChar c = false)
    (hok : okT l = true) (hs : splitSub (d0 :: dr) l = some (a, b)) :
    okT a = true ∧ okT b = true :=
  splitSub_okT_aux hd0 hdr l.length l a b (Nat.le_refl _) hok hs

theorem takeWhile_append_all {p : Char → Bool} :
    ∀ {x y : List Char}, (∀ c ∈ x, p c = true) →
      (x ++ y).takeWhile p = x ++ y.takeWhile p ∧
      (x ++ y).dropWhile p = y.dropWhile p := by
  intro x
  induction x with
  | nil => intro y _; simp
  | cons c x2 ih =>
      intro y hx
      have hc : p c = true := hx c (by simp)
      rw [List.cons_append, List.takeWhile_cons_of_pos hc,
        List.dropWhile_cons_of_pos hc]
      have := ih (y := y) fun d hd => hx d (by simp [hd])
      exact ⟨by rw [this.1, List.cons_append], this.2⟩

/-- Splitting at the first newline preserves the invariant on both sides. -/
theorem okT_takeDropNl_aux :
    ∀ n, ∀ l : List Char, l.length ≤ n → okT l = true →
      okT (l.takeWhile (fun x => x ≠ '\n')) = true ∧
      okT (l.dropWhile (fun x => x ≠ '\n')) = true := by
  intro n
  induction n with
  | zero =>
      intro l hl _
      have hnil : l = [] := List.eq_nil_of_length_eq_zero (by omega)
      subst hnil
      exact ⟨okT_nil, okT_nil⟩
  | succ n ih =>
      intro l hl hok
      match l with
      | [] => exact ⟨okT_nil, okT_nil⟩
      | c :: rest =>
          by_cases hnl : c = '\n'
          · subst hnl
            rw [List.takeWhile_cons_of_neg (by simp),
              List.dropWhile_cons_of_neg (by simp)]
            exact ⟨okT_nil, hok⟩
          · by_cases hc : c = '<'
            · subst hc
              obtain ⟨tok, t, hr, ht, heq⟩ := okT_lt_inv hok
              rw [heq]
              have hall : ∀ e ∈ tokChars tok, (fun x => decide (x ≠ '\n')) e = true := by
                intro e he
                simp
                exact spellChar_ne_of_false (spellChar_tokChars tok e he) spellChar_nl
              obtain ⟨h1, h2⟩ := takeWhile_append_all (y := t) hall
              rw [h1, h2]
              have hlt := readTag?_some_length hr
              simp only [List.length_cons] at hl hlt
              obtain ⟨ih1, ih2⟩ := ih t (by omega) ht
              exact ⟨by rw [okT_tok]; exact ih1, ih2⟩
            · rw [List.takeWhile_cons_of_pos (by simp [hnl]),
                List.dropWhile_cons_of_pos (by simp [hnl])]
              rw [okT_cons_ne c rest hc] at hok
              simp only [List.length_cons] at hl
              obtain ⟨ih1, ih2⟩ := ih rest (by omega) hok
              exact ⟨by rw [okT_cons_ne c _ hc]; exact ih1, ih2⟩

theorem okT_takeDropNl {l : List Char} (hok : okT l = true) :
    okT (l.takeWhile (fun x => x ≠ '\n')) = true ∧
    okT (l.dropWhile (fun x => x ≠ '\n')) = true :=
  okT_takeDropNl_aux l.length l (Nat.le_refl _) hok

/-! ### The conversion passes preserve the cleanly-tagged invariant -/

theorem isPrefixOf_cons_head {d0 c : Char} {dr rest : List Char}
    (h : (d0 :: dr).isPrefixOf (c :: rest) = true) : c = d0 := by
  simp [List.isPrefixOf] at h
  exact h.1.symm

theorem okT_tokChars_single (tok : Tok) : okT (tokChars tok) = true := by
  have h : tokChars tok = tokChars tok ++ [] := by simp
  rw [h, okT_tok]
  exact okT_nil

theorem convFences_nil : convFences [] = [] := by simp [convFences]

theorem convFences_not_fence {c : Char} {rest : List Char}
    (hf : (['`', '`', '`'] : List Char).isPrefixOf (c :: rest) = false) :
    convFences (c :: rest) = c :: convFences rest := by
  rw [convFences, hf]
  simp

theorem convFences_fence_nlnone {c : Char} {rest : List Char}
    (hf : (['`', '`', '`'] : List Char).isPrefixOf (c :: rest) = true)
    (h0 : splitSub ['\n'] ((c :: rest).drop 3) = none) :
    convFences (c :: rest) = c :: convFences rest := by
  rw [convFences, hf]
  simp only [reduceIte]
  split
  · rfl
  · rename_i p afterNl heq
    rw [h0] at heq
    exact absurd heq (by simp)

theorem convFences_fence_clnone {c : Char} {rest pre1 afterNl : List Char}
    (hf : (['`', '`', '`'] : List Char).isPrefixOf (c :: rest) = true)
    (h0 : splitSub ['\n'] ((c :: rest).drop 3) = some (pre1, afterNl))
    (h1 : splitSub ['`', '`', '`'] afterNl = none) :
    convFences (c :: rest) = c :: convFences rest := by
  rw [convFences, hf]
  simp only [reduceIte]
  split
  · rename_i heq
    exact absurd (h0.symm.trans heq) (by simp)
  · rename_i p afterNl2 heq
    rw [h0] at heq
    simp only [Option.some.injEq, Prod.mk.injEq] at heq
    obtain ⟨-, rfl⟩ := heq
    split
    · rfl
    · rename_i mid after heq2
      rw [h1] at heq2
      exact absurd heq2 (by simp)

theorem convFences_fence_some {c : Char} {rest pre1 afterNl mid after : List Char}
    (hf : (['`', '`', '`'] : List Char).isPrefixOf (c :: rest) = true)
    (h0 : splitSub ['\n'] ((c :: rest).drop 3) = some (pre1, afterNl))
    (h1 : splitSub ['`', '`', '`'] afterNl = some (mid, after)) :
    convFences (c :: rest) =
      '<' :: 'p' :: 'r' :: 'e' :: '>' ::
        (mid ++ '<' :: '/' :: 'p' :: 'r' :: 'e' :: '>' :: convFences after) := by
  rw [convFences, hf]
  simp only [reduceIte]
  split
  · rename_i heq
    exact absurd (h0.symm.trans heq) (by simp)
  · rename_i p afterNl2 heq
    rw [h0] at heq
    simp only [Option.some.injEq, Prod.mk.injEq] at heq
    obtain ⟨-, rfl⟩ := heq
    split
    · rename_i heq2
      exact absurd (h1.symm.trans heq2) (by simp)
    · rename_i mid2 after2 heq2
      rw [h1] at heq2
      simp only [Option.some.injEq, Prod.mk.injEq] at heq2
      obtain ⟨rfl, rfl⟩ := heq2
      rfl

theorem convFences_walk :
    ∀ (x : List Char), (∀ ch ∈ x, ¬ch = '`') → ∀ y,
      convFences (x ++ y) = x ++ convFences y := by
  intro x
  induction x with
  | nil => intro _ y; simp
  | cons ch x2 ih =>
      intro hx y
      have hc : ¬ch = '`' := hx ch (by simp)
      rw [List.cons_append,
        convFences_not_fence (isPrefixOf_cons_ne hc),
        ih (fun d hd => hx d (by simp [hd])) y,
        List.cons_append]

theorem convFences_okT_aux :
    ∀ n, ∀ l : List Char, l.length ≤ n → okT l = true →
      okT (convFences l) = true := by
  intro n
  induction n with
  | zero =>
      intro l hl _
      have hnil : l = [] := List.eq_nil_of_length_eq_zero (by omega)
      subst hnil
      rw [convFences_nil]
      exact okT_nil
  | succ n ih =>
      intro l hl hok
      match l with
      | [] => rw [convFences_nil]; exact okT_nil
      | c :: rest =>
          simp only [List.length_cons] at hl
          by_cases hf : (['`', '`', '`'] : List Char).isPrefixOf (c :: rest) = true
          · have hc : c = '`' := isPrefixOf_cons_head hf
            have hclt : ¬c = '<' := by rw [hc]; decide
            have hrest : okT rest = true := by
              rw [okT_cons_ne c rest hclt] at hok
              exact hok
            cases h0 : splitSub ['\n'] ((c :: rest).drop 3) with
            | none =>
                rw [convFences_fence_nlnone hf h0, okT_cons_ne c _ hclt]
                exact ih rest (by omega) hrest
            | some p =>
                cases h1 : splitSub ['`', '`', '`'] p.2 with
                | none =>
                    rw [convFences_fence_clnone hf (by rw [h0]) h1,
                      okT_cons_ne c _ hclt]
                    exact ih rest (by omega) hrest
                | some q =>
                    rw [convFences_fence_some hf (by rw [h0]) (by rw [h1])]
                    have hbody : okT ((c :: rest).drop 3) = true := by
                      have hd : okT ((['`', '`', '`'] : List Char) ++
                          (c :: rest).drop (['`', '`', '`'] : List Char).length) =
                          true := by
                        rw [← prefix_drop_eq hf]
                        exact hok
                      simp only [List.length_cons, List.length_nil] at hd
                      rw [okT_plain_append (by decide)] at hd
                      exact hd
                    have hs0 : splitSub ['\n'] ((c :: rest).drop 3) =
                        some (p.1, p.2) := by rw [h0]
                    have hs1 : splitSub ['`', '`', '`'] p.2 =
                        some (q.1, q.2) := by rw [h1]
                    have hafterNl : okT p.2 = true :=
                      (splitSub_okT (by decide) (by decide) hbody hs0).2
                    obtain ⟨hmid, hafter⟩ :=
                      splitSub_okT (by decide) (by decide) hafterNl hs1
                    have hlen0 := splitSub_some_length hs0
                    have hlen1 := splitSub_some_length hs1
                    simp only [List.length_drop, List.length_cons,
                      List.length_nil] at hlen0 hlen1
                    have hout : ('<' :: 'p' :: 'r' :: 'e' :: '>' ::
                        (q.1 ++ '<' :: '/' :: 'p' :: 'r' :: 'e' :: '>' ::
                          convFences q.2)) =
                        tokChars (.opn .pre) ++ (q.1 ++
                          (tokChars (.cls .pre) ++ convFences q.2)) := by
                      simp [tokChars, openChars, closeChars]
                    rw [hout, okT_tok]
                    exact okT_append hmid
                      (by rw [okT_tok]; exact ih q.2 (by omega) hafter)
          · have hf2 : (['`', '`', '`'] : List Char).isPrefixOf (c :: rest) = false := by
              cases hb : (['`', '`', '`'] : List Char).isPrefixOf (c :: rest) with
              | true => exact absurd hb hf
              | false => rfl
            by_cases hc : c = '<'
            · subst hc
              obtain ⟨tok, t, hr, ht, heq⟩ := okT_lt_inv hok
              rw [heq, convFences_walk (tokChars tok)
                (fun d hd => spellChar_ne_of_false
                  (spellChar_tokChars tok d hd) (by decide)) t,
                okT_tok]
              have hlt := readTag?_some_length hr
              simp only [List.length_cons] at hlt
              exact ih t (by omega) ht
            · rw [convFences_not_fence hf2, okT_cons_ne c _ hc]
              rw [okT_cons_ne c rest hc] at hok
              exact ih rest (by omega) hok

theorem convFences_okT {l : List Char} (hok : okT l = true) :
    okT (convFences l) = true :=
  convFences_okT_aux l.length l (Nat.le_refl _) hok

theorem convPair_nil (d0 : Char) (dr pre post : List Char) :
    convPair d0 dr pre post [] = [] := by
  simp [convPair]

theorem convPair_unmatched {d0 : Char} {dr : List Char} (pre post : List Char)
    {c : Char} {rest : List Char}
    (hp : (d0 :: dr).isPrefixOf (c :: rest) = false) :
    convPair d0 dr pre post (c :: rest) = c :: convPair d0 dr pre post rest := by
  rw [convPair, hp]
  simp

theorem convPair_prefix_none {d0 : Char} {dr : List Char} (pre post : List Char)
    {c : Char} {rest : List Char}
    (hp : (d0 :: dr).isPrefixOf (c :: rest) = true)
    (h0 : splitSubNoNl (d0 :: dr) ((c :: rest).drop (d0 :: dr).length) = none) :
    convPair d0 dr pre post (c :: rest) = c :: convPair d0 dr pre post rest := by
  rw [convPair, hp]
  simp only [reduceIte]
  split
  · rename_i mid after heq
    exact absurd (h0.symm.trans heq) (by simp)
  · rfl

theorem convPair_prefix_some {d0 : Char} {dr : List Char} (pre post : List Char)
    {c : Char} {rest mid after : List Char}
    (hp : (d0 :: dr).isPrefixOf (c :: rest) = true)
    (h0 : splitSubNoNl (d0 :: dr) ((c :: rest).drop (d0 :: dr).length) =
      some (mid, after)) :
    convPair d0 dr pre post (c :: rest) =
      pre ++ mid ++ post ++ convPair d0 dr pre post after := by
  rw [convPair, hp]
  simp only [reduceIte]
  split
  · rename_i mid2 after2 heq
    rw [h0] at heq
    simp only [Option.some.injEq, Prod.mk.injEq] at heq
    obtain ⟨rfl, rfl⟩ := heq
    rfl
  · rename_i heq
    exact absurd (heq.symm.trans h0) (by simp)

theorem convPair_walk (d0 : Char) (dr pre post : List Char) :
    ∀ (x : List Char), (∀ ch ∈ x, ¬ch = d0) → ∀ y,
      convPair d0 dr pre post (x ++ y) = x ++ convPair d0 dr pre post y := by
  intro x
  induction x with
  | nil => intro _ y; simp
  | cons ch x2 ih =>
      intro hx y
      have hc : ¬ch = d0 := hx ch (by simp)
      rw [List.cons_append,
        convPair_unmatched pre post (isPrefixOf_cons_ne hc),
        ih (fun d hd => hx d (by simp [hd])) y,
        List.cons_append]

theorem convPair_okT_aux {d0 : Char} {dr pre post : List Char}
    (hd0 : spellChar d0 = false) (hdr : ∀ c ∈ dr, spellChar c = false)
    (hpre : okT pre = true) (hpost : okT post = true) :
    ∀ n, ∀ l : List Char, l.length ≤ n → okT l = true →
      okT (convPair d0 dr pre post l) = true := by
  intro n
  induction n with
  | zero =>
      intro l hl _
      have hnil : l = [] := List.eq_nil_of_length_eq_zero (by omega)
      subst hnil
      rw [convPair_nil]
      exact okT_nil
  | succ n ih =>
      intro l hl hok
      match l with
      | [] => rw [convPair_nil]; exact okT_nil
      | c :: rest =>
          simp only [List.length_cons] at hl
          by_cases hp : (d0 :: dr).isPrefixOf (c :: rest) = true
          · have hc : c = d0 := isPrefixOf_cons_head hp
            have hclt : ¬c = '<' := by
              rw [hc]
              intro he
              rw [he] at hd0
              exact absurd hd0 (by decide)
            have hrest : okT rest = true := by
              rw [okT_cons_ne c rest hclt] at hok
              exact hok
            cases h0 : splitSubNoNl (d0 :: dr) ((c :: rest).drop (d0 :: dr).length) with
            | none =>
                rw [convPair_prefix_none pre post hp h0, okT_cons_ne c _ hclt]
                exact ih rest (by omega) hrest
            | some p =>
                rw [convPair_prefix_some pre post hp (by rw [h0])]
                have hbody : okT ((c :: rest).drop (d0 :: dr).length) = true := by
                  have hd : okT ((d0 :: dr) ++
                      (c :: rest).drop (d0 :: dr).length) = true := by
                    rw [← prefix_drop_eq hp]
                    exact hok
                  rw [okT_plain_append] at hd
                  · exact hd
                  · intro e he
                    simp at he
                    rcases he with rfl | he
                    · intro he2
                      rw [he2] at hd0
                      exact absurd hd0 (by decide)
                    · intro he2
                      have hh := hdr e he
                      rw [he2] at hh
                      exact absurd hh (by decide)
                obtain ⟨hmid, hafter⟩ :=
                  splitSubNoNl_okT hd0 hdr hbody (by rw [h0])
                have hs0 : splitSubNoNl (d0 :: dr)
                    ((c :: rest).drop (d0 :: dr).length) = some (p.1, p.2) := by
                  rw [h0]
                have hlen := splitSubNoNl_some_length hs0
                simp only [List.length_drop, List.length_cons] at hlen
                exact okT_append (okT_append (okT_append hpre hmid) hpost)
                  (ih p.2 (by omega) hafter)
          · have hp2 : (d0 :: dr).isPrefixOf (c :: rest) = false := by
              cases hb : (d0 :: dr).isPrefixOf (c :: rest) with
              | true => exact absurd hb hp
              | false => rfl
            by_cases hc : c = '<'
            · subst hc
              obtain ⟨tok, t, hr, ht, heq⟩ := okT_lt_inv hok
              rw [heq, convPair_walk d0 dr pre post (tokChars tok)
                (fun d hd => spellChar_ne_of_false
                  (spellChar_tokChars tok d hd) hd0) t,
                okT_tok]
              have hlt := readTag?_some_length hr
              simp only [List.length_cons] at hlt
              exact ih t (by omega) ht
            · rw [convPair_unmatched pre post hp2, okT_cons_ne c _ hc]
              rw [okT_cons_ne c rest hc] at hok
              exact ih rest (by omega) hok

theorem convPair_okT {d0 : Char} {dr pre post : List Char} {l : List Char}
    (hd0 : spellChar d0 = false) (hdr : ∀ c ∈ dr, spellChar c = false)
    (hpre : okT pre = true) (hpost : okT post = true) (hok : okT l = true) :
    okT (convPair d0 dr pre post l) = true :=
  convPair_okT_aux hd0 hdr hpre hpost l.length l (Nat.le_refl _) hok

theorem hdrGo_nil (flag : Bool) : hdrGo [] flag = [] := by
  simp [hdrGo]

theorem hdrGo_no_hdr {c : Char} {rest : List Char} {flag : Bool}
    (h : ¬(flag = true ∧ c = '#')) :
    hdrGo (c :: rest) flag = c :: hdrGo rest (c == '\n') := by
  rw [hdrGo, dif_neg h]

theorem hdrGo_hdr_nows {c : Char} {rest : List Char} {flag : Bool}
    (h : flag = true ∧ c = '#')
    (hws : ((c :: rest).dropWhile (fun x => x = '#')).takeWhile isPyWs = []) :
    hdrGo (c :: rest) flag = c :: hdrGo rest false := by
  rw [hdrGo, dif_pos h, dif_pos hws]

theorem hdrGo_hdr {c : Char} {rest : List Char} {flag : Bool}
    (h : flag = true ∧ c = '#')
    (hws : ¬((c :: rest).dropWhile (fun x => x = '#')).takeWhile isPyWs = []) :
    hdrGo (c :: rest) flag =
      '<' :: 'b' :: '>' ::
        ((((c :: rest).dropWhile (fun x => x = '#')).dropWhile
            isPyWs).takeWhile (fun x => x ≠ '\n') ++
          '<' :: '/' :: 'b' :: '>' ::
            hdrGo ((((c :: rest).dropWhile (fun x => x = '#')).dropWhile
              isPyWs).dropWhile (fun x => x ≠ '\n')) false) := by
  rw [hdrGo, dif_pos h, dif_neg hws]

theorem hdrGo_walk :
    ∀ (x : List Char), (∀ ch ∈ x, ¬ch = '#' ∧ ¬ch = '\n') → ∀ y flag,
      hdrGo (x ++ y) flag = x ++ hdrGo y (if x.isEmpty then flag else false) := by
  intro x
  induction x with
  | nil => intro _ y flag; simp
  | cons ch x2 ih =>
      intro hx y flag
      have hc := hx ch (by simp)
      rw [List.cons_append, hdrGo_no_hdr (by intro hcon; exact hc.1 hcon.2)]
      have hbeq : (ch == '\n') = false := by
        simp
        exact hc.2
      rw [hbeq, ih (fun d hd => hx d (by simp [hd])) y false]
      simp

theorem isPyWs_ne_lt {c : Char} (h : isPyWs c = true) : ¬c = '<' := by
  intro he
  rw [he] at h
  exact absurd h (by decide)

theorem hdrGo_okT_aux :
    ∀ n, ∀ l : List Char, l.length ≤ n → okT l = true → ∀ flag,
      okT (hdrGo l flag) = true := by
  intro n
  induction n with
  | zero =>
      intro l hl _ flag
      have hnil : l = [] := List.eq_nil_of_length_eq_zero (by omega)
      subst hnil
      rw [hdrGo_nil]
      exact okT_nil
  | succ n ih =>
      intro l hl hok flag
      match l with
      | [] => rw [hdrGo_nil]; exact okT_nil
      | c :: rest =>
          simp only [List.length_cons] at hl
          by_cases h : flag = true ∧ c = '#'
          · have hclt : ¬c = '<' := by rw [h.2]; decide
            have hrest : okT rest = true := by
              rw [okT_cons_ne c rest hclt] at hok
              exact hok
            by_cases hws : ((c :: rest).dropWhile (fun x => x = '#')).takeWhile
                isPyWs = []
            · rw [hdrGo_hdr_nows h hws, okT_cons_ne c _ hclt]
              exact ih rest (by omega) hrest false
            · rw [hdrGo_hdr h hws]
              have ht1 : okT ((c :: rest).dropWhile (fun x => x = '#')) = true :=
                okT_dropWhile_plain
                  (fun e he => by
                    simp at he
                    rw [he]
                    decide) hok
              have ht2 : okT (((c :: rest).dropWhile (fun x => x = '#')).dropWhile
                  isPyWs) = true :=
                okT_dropWhile_plain (fun e he => isPyWs_ne_lt he) ht1
              obtain ⟨hgrp, hafter⟩ := okT_takeDropNl ht2
              have hlen1 : ((c :: rest).dropWhile (fun x => x = '#')).length ≤
                  rest.length := by
                have : (c :: rest).dropWhile (fun x => x = '#') =
                    rest.dropWhile (fun x => x = '#') := by
                  rw [List.dropWhile_cons_of_pos]
                  simp [h.2]
                rw [this]
                exact length_dropWhile_le_self _ rest
              have hlen2 := dropWhile_length_lt_of_take (p := isPyWs) hws
              have hlen3 := length_dropWhile_le_self (fun x => decide (x ≠ '\n'))
                (((c :: rest).dropWhile (fun x => x = '#')).dropWhile isPyWs)
              have hout : ('<' :: 'b' :: '>' ::
                  ((((c :: rest).dropWhile (fun x => x = '#')).dropWhile
                      isPyWs).takeWhile (fun x => x ≠ '\n') ++
                    '<' :: '/' :: 'b' :: '>' ::
                      hdrGo ((((c :: rest).dropWhile (fun x => x = '#')).dropWhile
                        isPyWs).dropWhile (fun x => x ≠ '\n')) false)) =
                  tokChars (.opn .b) ++
                    ((((c :: rest).dropWhile (fun x => x = '#')).dropWhile
                        isPyWs).takeWhile (fun x => x ≠ '\n') ++
                      (tokChars (.cls .b) ++
                        hdrGo ((((c :: rest).dropWhile (fun x => x = '#')).dropWhile
                          isPyWs).dropWhile (fun x => x ≠ '\n')) false)) := by
                simp [tokChars, openChars, closeChars]
              rw [hout, okT_tok]
              refine okT_append hgrp ?_
              rw [okT_tok]
              exact ih _ (by omega) hafter false
          · by_cases hc : c = '<'
            · subst hc
              obtain ⟨tok, t, hr, ht, heq⟩ := okT_lt_inv hok
              rw [heq, hdrGo_walk (tokChars tok)
                (fun d hd =>
                  ⟨spellChar_ne_of_false (spellChar_tokChars tok d hd) (by decide),
                   spellChar_ne_of_false (spellChar_tokChars tok d hd) (by decide)⟩)
                t flag,
                okT_tok]
              have hlt := readTag?_some_length hr
              simp only [List.length_cons] at hlt
              exact ih t (by omega) ht _
            · rw [hdrGo_no_hdr h, okT_cons_ne c _ hc]
              rw [okT_cons_ne c rest hc] at hok
              exact ih rest (by omega) hok _

theorem convHeaders_okT {l : List Char} (hok : okT l = true) :
    okT (convHeaders l) = true :=
  hdrGo_okT_aux l.length l (Nat.le_refl _) hok true

/-! ### The validation loop produces balanced, cleanly-tagged output -/

/-- One validation-loop step on a recognised token. -/
def vgStep (tok : Tok) (t : List Char) (st : List Tg) : List Char :=
  match tok with
  | .opn tg => openChars tg ++ validateGo t (tg :: st)
  | .cls tg =>
      if st.head? = some tg then closeChars tg ++ validateGo t st.tail
      else validateGo t st

theorem validateGo_nil (st : List Tg) : validateGo [] st = closeAll st := by
  simp [validateGo]

theorem validateGo_cons_ne (c : Char) (rest : List Char) (st : List Tg)
    (h : ¬c = '<') : validateGo (c :: rest) st = c :: validateGo rest st := by
  rw [validateGo]
  simp [h]

theorem validateGo_read_some {rest : List Char} {tok : Tok} {t : List Char}
    (st : List Tg) (h : readTag? ('<' :: rest) = some (tok, t)) :
    validateGo ('<' :: rest) st = vgStep tok t st := by
  unfold vgStep
  rw [validateGo]
  simp only [reduceIte]
  split
  · rename_i tg t2 heq
    rw [h] at heq
    simp only [Option.some.injEq, Prod.mk.injEq] at heq
    obtain ⟨rfl, rfl⟩ := heq
    rfl
  · rename_i tg t2 heq
    rw [h] at heq
    simp only [Option.some.injEq, Prod.mk.injEq] at heq
    obtain ⟨rfl, rfl⟩ := heq
    rfl
  · rename_i heq
    rw [h] at heq
    exact absurd heq (by simp)

theorem closeAll_balance : ∀ st : List Tg, checkBalance (closeAll st) st = true
  | [] => by rw [closeAll, checkBalance_nil]; rfl
  | tg :: st => by
      rw [closeAll]
      have : closeChars tg = tokChars (.cls tg) := rfl
      rw [this, checkBalance_tok]
      unfold cbStep
      simp only [List.head?_cons, List.tail_cons, if_pos rfl]
      exact closeAll_balance st

theorem closeAll_okT : ∀ st : List Tg, okT (closeAll st) = true
  | [] => okT_nil
  | tg :: st => by
      rw [closeAll]
      have : closeChars tg = tokChars (.cls tg) := rfl
      rw [this, okT_tok]
      exact closeAll_okT st

theorem validateGo_okT_aux :
    ∀ n, ∀ l : List Char, l.length ≤ n → okT l = true → ∀ st : List Tg,
      okT (validateGo l st) = true := by
  intro n
  induction n with
  | zero =>
      intro l hl _ st
      have hnil : l = [] := List.eq_nil_of_length_eq_zero (by omega)
      subst hnil
      rw [validateGo_nil]
      exact closeAll_okT st
  | succ n ih =>
      intro l hl hok st
      match l with
      | [] => rw [validateGo_nil]; exact closeAll_okT st
      | c :: rest =>
          simp only [List.length_cons] at hl
          by_cases hc : c = '<'
          · subst hc
            obtain ⟨tok, t, hr, ht, -⟩ := okT_lt_inv hok
            rw [validateGo_read_some st hr]
            have hlt := readTag?_some_length hr
            simp only [List.length_cons] at hlt
            match tok with
            | .opn tg =>
                simp only [vgStep]
                have he : openChars tg = tokChars (.opn tg) := rfl
                rw [he, okT_tok]
                exact ih t (by omega) ht _
            | .cls tg =>
                simp only [vgStep]
                by_cases hst : st.head? = some tg
                · rw [if_pos hst]
                  have he : closeChars tg = tokChars (.cls tg) := rfl
                  rw [he, okT_tok]
                  exact ih t (by omega) ht _
                · rw [if_neg hst]
                  exact ih t (by omega) ht _
          · rw [validateGo_cons_ne c rest st hc, okT_cons_ne c _ hc]
            rw [okT_cons_ne c rest hc] at hok
            exact ih rest (by omega) hok st

theorem validateGo_okT {l : List Char} (hok : okT l = true) (st : List Tg) :
    okT (validateGo l st) = true :=
  validateGo_okT_aux l.length l (Nat.le_refl _) hok st

theorem validateGo_balance_aux :
    ∀ n, ∀ l : List Char, l.length ≤ n → okT l = true → ∀ st : List Tg,
      checkBalance (validateGo l st) st = true := by
  intro n
  induction n with
  | zero =>
      intro l hl _ st
      have hnil : l = [] := List.eq_nil_of_length_eq_zero (by omega)
      subst hnil
      rw [validateGo_nil]
      exact closeAll_balance st
  | succ n ih =>
      intro l hl hok st
      match l with
      | [] => rw [validateGo_nil]; exact closeAll_balance st
      | c :: rest =>
          simp only [List.length_cons] at hl
          by_cases hc : c = '<'
          · subst hc
            obtain ⟨tok, t, hr, ht, -⟩ := okT_lt_inv hok
            rw [validateGo_read_some st hr]
            have hlt := readTag?_some_length hr
            simp only [List.length_cons] at hlt
            match tok with
            | .opn tg =>
                simp only [vgStep]
                have he : openChars tg = tokChars (.opn tg) := rfl
                rw [he, checkBalance_tok]
                simp only [cbStep]
                exact ih t (by omega) ht _
            | .cls tg =>
                simp only [vgStep]
                by_cases hst : st.head? = some tg
                · rw [if_pos hst]
                  have he : closeChars tg = tokChars (.cls tg) := rfl
                  rw [he, checkBalance_tok]
                  simp only [cbStep]
                  rw [if_pos hst]
                  exact ih t (by omega) ht _
                · rw [if_neg hst]
                  exact ih t (by omega) ht _
          · rw [validateGo_cons_ne c rest st hc, checkBalance_cons_ne c _ st hc]
            rw [okT_cons_ne c rest hc] at hok
            exact ih rest (by omega) hok st

theorem validateGo_balance {l : List Char} (hok : okT l = true) (st : List Tg) :
    checkBalance (validateGo l st) st = true :=
  validateGo_balance_aux l.length l (Nat.le_refl _) hok st

/-! ### The final escaping pass keeps recognised tags and hence balance -/

theorem finalEscape_nil : finalEscape [] = [] := by simp [finalEscape]

theorem finalEscape_lt_some {rest consumed t : List Char}
    (h : tag8After? rest = some (consumed, t)) :
    finalEscape ('<' :: rest) = consumed ++ finalEscape t := by
  rw [finalEscape]
  simp only [reduceIte]
  split
  · rename_i c2 t2 heq
    rw [h] at heq
    simp only [Option.some.injEq, Prod.mk.injEq] at heq
    obtain ⟨rfl, rfl⟩ := heq
    rfl
  · rename_i heq
    exact absurd (heq.symm.trans h) (by simp)

theorem finalEscape_gt (rest : List Char) :
    finalEscape ('>' :: rest) = '&' :: 'g' :: 't' :: ';' :: finalEscape rest := by
  rw [finalEscape]
  simp

theorem finalEscape_amp (rest : List Char) :
    finalEscape ('&' :: rest) = '&' :: 'a' :: 'm' :: 'p' :: ';' :: finalEscape rest := by
  rw [finalEscape]
  simp

theorem finalEscape_other {c : Char} (rest : List Char)
    (h1 : ¬c = '<') (h2 : ¬c = '>') (h3 : ¬c = '&') :
    finalEscape (c :: rest) = c :: finalEscape rest := by
  rw [finalEscape]
  simp [h1, h2, h3]

theorem finalEscape_tok (tok : Tok) (X : List Char) :
    finalEscape (tokChars tok ++ X) = tokChars tok ++ finalEscape X := by
  cases tok with
  | opn tg =>
      cases tg with
      | b =>
          have h : tag8After? ('b' :: '>' :: X) = some (['<', 'b', '>'], X) := by
            simp [tag8After?, wordAlt?, matchCI, splitGt, boundaryOk, isWordChar,
              Char.toLower]
          exact finalEscape_lt_some h
      | i =>
          have h : tag8After? ('i' :: '>' :: X) = some (['<', 'i', '>'], X) := by
            simp [tag8After?, wordAlt?, matchCI, splitGt, boundaryOk, isWordChar,
              Char.toLower]
          exact finalEscape_lt_some h
      | s =>
          have h : tag8After? ('s' :: '>' :: X) = some (['<', 's', '>'], X) := by
            simp [tag8After?, wordAlt?, matchCI, splitGt, boundaryOk, isWordChar,
              Char.toLower]
          exact finalEscape_lt_some h
      | code =>
          have h : tag8After? ('c' :: 'o' :: 'd' :: 'e' :: '>' :: X) =
              some (['<', 'c', 'o', 'd', 'e', '>'], X) := by
            simp [tag8After?, wordAlt?, matchCI, splitGt, boundaryOk, isWordChar,
              Char.toLower]
          exact finalEscape_lt_some h
      | pre =>
          have h : tag8After? ('p' :: 'r' :: 'e' :: '>' :: X) =
              some (['<', 'p', 'r', 'e', '>'], X) := by
            simp [tag8After?, wordAlt?, matchCI, splitGt, boundaryOk, isWordChar,
              Char.toLower]
          exact finalEscape_lt_some h
  | cls tg =>
      cases tg with
      | b =>
          have h : tag8After? ('/' :: 'b' :: '>' :: X) =
              some (['<', '/', 'b', '>'], X) := by
            simp [tag8After?, wordAlt?, matchCI, splitGt, boundaryOk, isWordChar,
              Char.toLower]
          exact finalEscape_lt_some h
      | i =>
          have h : tag8After? ('/' :: 'i' :: '>' :: X) =
              some (['<', '/', 'i', '>'], X) := by
            simp [tag8After?, wordAlt?, matchCI, splitGt, boundaryOk, isWordChar,
              Char.toLower]
          exact finalEscape_lt_some h
      | s =>
          have h : tag8After? ('/' :: 's' :: '>' :: X) =
              some (['<', '/', 's', '>'], X) := by
            simp [tag8After?, wordAlt?, matchCI, splitGt, boundaryOk, isWordChar,
              Char.toLower]
          exact finalEscape_lt_some h
      | code =>
          have h : tag8After? ('/' :: 'c' :: 'o' :: 'd' :: 'e' :: '>' :: X) =
              some (['<', '/', 'c', 'o', 'd', 'e', '>'], X) := by
            simp [tag8After?, wordAlt?, matchCI, splitGt, boundaryOk, isWordChar,
              Char.toLower]
          exact finalEscape_lt_some h
      | pre =>
          have h : tag8After? ('/' :: 'p' :: 'r' :: 'e' :: '>' :: X) =
              some (['<', '/', 'p', 'r', 'e', '>'], X) := by
            simp [tag8After?, wordAlt?, matchCI, splitGt, boundaryOk, isWordChar,
              Char.toLower]
          exact finalEscape_lt_some h

theorem finalEscape_balance_aux :
    ∀ n, ∀ m : List Char, m.length ≤ n → okT m = true → ∀ st : List Tg,
      checkBalance (finalEscape m) st = checkBalance m st := by
  intro n
  induction n with
  | zero =>
      intro m hm _ st
      have hnil : m = [] := List.eq_nil_of_length_eq_zero (by omega)
      subst hnil
      rw [finalEscape_nil]
  | succ n ih =>
      intro m hm hok st
      match m with
      | [] => rw [finalEscape_nil]
      | c :: rest =>
          simp only [List.length_cons] at hm
          by_cases hc : c = '<'
          · subst hc
            obtain ⟨tok, t, hr, ht, heq⟩ := okT_lt_inv hok
            have hlt := readTag?_some_length hr
            simp only [List.length_cons] at hlt
            rw [heq, finalEscape_tok, checkBalance_tok, checkBalance_tok]
            match tok with
            | .opn tg =>
                simp only [cbStep]
                exact ih t (by omega) ht _
            | .cls tg =>
                simp only [cbStep]
                by_cases hst : st.head? = some tg
                · rw [if_pos hst, if_pos hst]
                  exact ih t (by omega) ht _
                · rw [if_neg hst, if_neg hst]
          · by_cases hgt : c = '>'
            · subst hgt
              rw [finalEscape_gt,
                checkBalance_cons_ne '&' _ st (by decide),
                checkBalance_cons_ne 'g' _ st (by decide),
                checkBalance_cons_ne 't' _ st (by decide),
                checkBalance_cons_ne ';' _ st (by decide),
                checkBalance_cons_ne '>' _ st (by decide)]
              rw [okT_cons_ne '>' rest (by decide)] at hok
              exact ih rest (by omega) hok st
            · by_cases hamp : c = '&'
              · subst hamp
                rw [finalEscape_amp,
                  checkBalance_cons_ne '&' _ st (by decide),
                  checkBalance_cons_ne 'a' _ st (by decide),
                  checkBalance_cons_ne 'm' _ st (by decide),
                  checkBalance_cons_ne 'p' _ st (by decide),
                  checkBalance_cons_ne ';' _ st (by decide),
                  checkBalance_cons_ne '&' _ st (by decide)]
                rw [okT_cons_ne '&' rest (by decide)] at hok
                exact ih rest (by omega) hok st
              · rw [finalEscape_other rest hc hgt hamp,
                  checkBalance_cons_ne c _ st hc,
                  checkBalance_cons_ne c _ st hc]
                rw [okT_cons_ne c rest hc] at hok
                exact ih rest (by omega) hok st

theorem finalEscape_balance {m : List Char} (hok : okT m = true) (st : List Tg) :
    checkBalance (finalEscape m) st = checkBalance m st :=
  finalEscape_balance_aux m.length m (Nat.le_refl _) hok st

/-! ### After passes 1 and 2 the text contains no `<` at all -/

/-- After pass 1, every remaining `<` is immediately followed by `>` or has
no `>` anywhere after it. -/
def qOk : List Char → Bool
  | [] => true
  | c :: rest =>
      (!(c = '<') || (rest.head? = some '>') || !(rest.contains '>')) && qOk rest

theorem stripHtmlTags_nil : stripHtmlTags [] = [] := by simp [stripHtmlTags]

theorem stripHtmlTags_not_lt {c : Char} (rest : List Char) (h : ¬c = '<') :
    stripHtmlTags (c :: rest) = c :: stripHtmlTags rest := by
  rw [stripHtmlTags]
  simp [h]

theorem stripHtmlTags_lt_gt {rest : List Char} (h : rest.head? = some '>') :
    stripHtmlTags ('<' :: rest) = '<' :: '>' :: stripHtmlTags rest.tail := by
  rw [stripHtmlTags]
  simp [h]

theorem stripHtmlTags_lt_some {rest t : List Char}
    (hh : ¬rest.head? = some '>') (hs : splitAfterGt rest = some t) :
    stripHtmlTags ('<' :: rest) = stripHtmlTags t := by
  rw [stripHtmlTags]
  simp only [reduceIte, if_neg hh]
  split
  · rename_i t2 heq
    rw [hs] at heq
    simp only [Option.some.injEq] at heq
    rw [heq]
  · rename_i heq
    exact absurd (heq.symm.trans hs) (by simp)

theorem stripHtmlTags_lt_none {rest : List Char}
    (hh : ¬rest.head? = some '>') (hs : splitAfterGt rest = none) :
    stripHtmlTags ('<' :: rest) = '<' :: stripHtmlTags rest := by
  rw [stripHtmlTags]
  simp only [reduceIte, if_neg hh]
  split
  · rename_i t2 heq
    exact absurd (hs.symm.trans heq) (by simp)
  · rfl

theorem splitAfterGt_mem :
    ∀ {l t : List Char}, splitAfterGt l = some t → ∀ x ∈ t, x ∈ l
  | [], t, h => by simp [splitAfterGt] at h
  | c :: rest, t, h => by
      by_cases hc : c = '>'
      · simp [splitAfterGt, hc] at h
        subst h
        intro x hx
        simp [hx]
      · simp [splitAfterGt, hc] at h
        intro x hx
        simp [splitAfterGt_mem h x hx]

theorem splitAfterGt_eq_none :
    ∀ {l : List Char}, splitAfterGt l = none → ('>' : Char) ∉ l
  | [], _ => by simp
  | c :: rest, h => by
      by_cases hc : c = '>'
      · simp [splitAfterGt, hc] at h
      · simp [splitAfterGt, hc] at h
        simp [splitAfterGt_eq_none h]
        intro he
        exact hc he.symm

theorem head?_gt_eq {rest : List Char} (hh : rest.head? = some '>') :
    rest = '>' :: rest.tail := by
  cases rest with
  | nil => simp at hh
  | cons a b => simp at hh; subst hh; rfl

theorem stripHtmlTags_subset_aux :
    ∀ n, ∀ l : List Char, l.length ≤ n → ∀ x ∈ stripHtmlTags l, x ∈ l := by
  intro n
  induction n with
  | zero =>
      intro l hl
      have hnil : l = [] := List.eq_nil_of_length_eq_zero (by omega)
      subst hnil
      rw [stripHtmlTags_nil]
      simp
  | succ n ih =>
      intro l hl x hx
      match l with
      | [] => rw [stripHtmlTags_nil] at hx; simp at hx
      | c :: rest =>
          simp only [List.length_cons] at hl
          by_cases hc : c = '<'
          · subst hc
            by_cases hh : rest.head? = some '>'
            · rw [stripHtmlTags_lt_gt hh] at hx
              have hre := head?_gt_eq hh
              have hlen : rest.tail.length < rest.length := by
                rw [hre]; simp
              simp only [List.mem_cons] at hx ⊢
              rcases hx with rfl | rfl | hx
              · exact Or.inl rfl
              · rw [hre]; simp
              · have := ih rest.tail (by omega) x hx
                refine Or.inr ?_
                rw [hre]
                simp only [List.mem_cons]
                right
                exact this
            · cases hs : splitAfterGt rest with
              | some t =>
                  rw [stripHtmlTags_lt_some hh hs] at hx
                  have hlt := splitAfterGt_some_length hs
                  have := ih t (by omega) x hx
                  simp [splitAfterGt_mem hs x this]
              | none =>
                  rw [stripHtmlTags_lt_none hh hs] at hx
                  simp only [List.mem_cons] at hx ⊢
                  rcases hx with rfl | hx
                  · exact Or.inl rfl
                  · exact Or.inr (ih rest (by omega) x hx)
          · rw [stripHtmlTags_not_lt rest hc] at hx
            simp only [List.mem_cons] at hx ⊢
            rcases hx with rfl | hx
            · exact Or.inl rfl
            · exact Or.inr (ih rest (by omega) x hx)

theorem stripHtmlTags_subset {l : List Char} {x : Char}
    (hx : x ∈ stripHtmlTags l) : x ∈ l :=
  stripHtmlTags_subset_aux l.length l (Nat.le_refl _) x hx

theorem qOk_cons_of {c : Char} {rest : List Char}
    (h1 : c = '<' → rest.head? = some '>' ∨ ('>' : Char) ∉ rest)
    (h2 : qOk rest = true) : qOk (c :: rest) = true := by
  rw [qOk]
  simp only [Bool.and_eq_true]
  refine ⟨?_, h2⟩
  by_cases hc : c = '<'
  · rcases h1 hc with hh | hh
    · simp [hh]
    · simp [hc, hh]
  · simp [hc]

theorem qOk_cons_inv {c : Char} {rest : List Char} (h : qOk (c :: rest) = true) :
    (c = '<' → rest.head? = some '>' ∨ ('>' : Char) ∉ rest) ∧ qOk rest = true := by
  rw [qOk] at h
  simp only [Bool.and_eq_true] at h
  refine ⟨?_, h.2⟩
  intro hc
  subst hc
  have h1 := h.1
  simp at h1
  exact h1

theorem stripHtmlTags_qOk_aux :
    ∀ n, ∀ l : List Char, l.length ≤ n → qOk (stripHtmlTags l) = true := by
  intro n
  induction n with
  | zero =>
      intro l hl
      have hnil : l = [] := List.eq_nil_of_length_eq_zero (by omega)
      subst hnil
      rw [stripHtmlTags_nil]
      rfl
  | succ n ih =>
      intro l hl
      match l with
      | [] => rw [stripHtmlTags_nil]; rfl
      | c :: rest =>
          simp only [List.length_cons] at hl
          by_cases hc : c = '<'
          · subst hc
            by_cases hh : rest.head? = some '>'
            · rw [stripHtmlTags_lt_gt hh]
              have hre := head?_gt_eq hh
              have hlen : rest.tail.length < rest.length := by
                rw [hre]; simp
              refine qOk_cons_of (fun _ => Or.inl (by simp)) ?_
              refine qOk_cons_of (fun hgt => by cases hgt) ?_
              exact ih rest.tail (by omega)
            · cases hs : splitAfterGt rest with
              | some t =>
                  rw [stripHtmlTags_lt_some hh hs]
                  have hlt := splitAfterGt_some_length hs
                  exact ih t (by omega)
              | none =>
                  rw [stripHtmlTags_lt_none hh hs]
                  refine qOk_cons_of (fun _ => Or.inr ?_) (ih rest (by omega))
                  intro hmem
                  exact absurd (stripHtmlTags_subset hmem) (splitAfterGt_eq_none hs)
          · rw [stripHtmlTags_not_lt rest hc]
            exact qOk_cons_of (fun he => absurd he hc) (ih rest (by omega))

theorem stripHtmlTags_qOk (l : List Char) : qOk (stripHtmlTags l) = true :=
  stripHtmlTags_qOk_aux l.length l (Nat.le_refl _)

theorem gtAfterLetters_mem :
    ∀ {r : List Char}, gtAfterLetters r = true → ('>' : Char) ∈ r
  | [], h => by simp [gtAfterLetters] at h
  | c :: rest, h => by
      by_cases hc : c = '>'
      · simp [hc]
      · simp [gtAfterLetters, hc] at h
        simp [gtAfterLetters_mem h.2]

theorem lettersThenGt_mem {r : List Char} (h : lettersThenGt r = true) :
    ('>' : Char) ∈ r := by
  match r with
  | [] => simp [lettersThenGt] at h
  | c :: rest =>
      simp [lettersThenGt] at h
      simp [gtAfterLetters_mem h.2]

theorem escapeBareLt_noLt :
    ∀ {l : List Char}, qOk l = true → ('<' : Char) ∉ escapeBareLt l
  | [], _ => by simp [escapeBareLt]
  | c :: rest, hq => by
      obtain ⟨hcond, hrest⟩ := qOk_cons_inv hq
      by_cases hc : c = '<'
      · subst hc
        have hla : ltLookahead rest = false := by
          rcases hcond rfl with hh | hh
          · rw [ltLookahead, if_neg (by rw [hh]; simp)]
            rw [head?_gt_eq hh]
            simp [lettersThenGt, isLowerAZ]
          · rw [ltLookahead]
            by_cases hsl : rest.head? = some '/'
            · rw [if_pos hsl]
              cases hlg : lettersThenGt rest.tail with
              | false => rfl
              | true =>
                  have := lettersThenGt_mem hlg
                  exact absurd (List.mem_of_mem_tail this) hh
            · rw [if_neg hsl]
              cases hlg : lettersThenGt rest with
              | false => rfl
              | true => exact absurd (lettersThenGt_mem hlg) hh
        rw [escapeBareLt]
        simp only [reduceIte, hla]
        simp only [Bool.false_eq_true, if_false]
        intro hmem
        simp at hmem
        exact absurd hmem (escapeBareLt_noLt hrest)
      · rw [escapeBareLt]
        simp only [if_neg hc]
        intro hmem
        simp at hmem
        rcases hmem with rfl | h1
        · exact hc rfl
        · exact absurd h1 (escapeBareLt_noLt hrest)

/-- The text entering the validation pass is cleanly tagged: passes 1 and 2
remove every bare `<` and the conversion passes only introduce complete tag
spellings. -/
theorem pipeline_okT (s : List Char) :
    okT (convHeaders (convStrike (convItalic (convBold (convBoldItalic
      (convInlineCode (convFences (escapeBareLt (stripHtmlTags s))))))))) =
      true := by
  have h0 : okT (escapeBareLt (stripHtmlTags s)) = true :=
    noLt_okT (escapeBareLt_noLt (stripHtmlTags_qOk s))
  have h1 := convFences_okT h0
  have h2 : okT (convInlineCode (convFences (escapeBareLt
      (stripHtmlTags s)))) = true := by
    unfold convInlineCode
    exact convPair_okT (by decide) (by decide)
      (show okT (tokChars (.opn .code)) = true from okT_tokChars_single _)
      (show okT (tokChars (.cls .code)) = true from okT_tokChars_single _) h1
  have h3 : okT (convBoldItalic (convInlineCode (convFences (escapeBareLt
      (stripHtmlTags s))))) = true := by
    unfold convBoldItalic
    exact convPair_okT (by decide) (by decide)
      (show okT (tokChars (.opn .b) ++ tokChars (.opn .i)) = true from
        okT_append (okT_tokChars_single _) (okT_tokChars_single _))
      (show okT (tokChars (.cls .i) ++ tokChars (.cls .b)) = true from
        okT_append (okT_tokChars_single _) (okT_tokChars_single _)) h2
  have h4 : okT (convBold (convBoldItalic (convInlineCode (convFences
      (escapeBareLt (stripHtmlTags s)))))) = true := by
    unfold convBold
    exact convPair_okT (by decide) (by decide)
      (show okT (tokChars (.opn .b)) = true from okT_tokChars_single _)
      (show okT (tokChars (.cls .b)) = true from okT_tokChars_single _) h3
  have h5 : okT (convItalic (convBold (convBoldItalic (convInlineCode
      (convFences (escapeBareLt (stripHtmlTags s))))))) = true := by
    unfold convItalic
    exact convPair_okT (by decide) (by decide)
      (show okT (tokChars (.opn .i)) = true from okT_tokChars_single _)
      (show okT (tokChars (.cls .i)) = true from okT_tokChars_single _) h4
  have h6 : okT (convStrike (convItalic (convBold (convBoldItalic
      (convInlineCode (convFences (escapeBareLt (stripHtmlTags s)))))))) =
      true := by
    unfold convStrike
    exact convPair_okT (by decide) (by decide)
      (show okT (tokChars (.opn .s)) = true from okT_tokChars_single _)
      (show okT (tokChars (.cls .s)) = true from okT_tokChars_single _) h5
  exact convHeaders_okT h6

/-- C1: for every input, the sanitizer output contains only properly
nested, fully closed tags from the set b, i, s, code, pre: the
left-to-right tag-stack scan of the output accepts with an empty final
stack, with every `<` in the output beginning a recognised tag and every
closing tag matching the innermost open tag. -/
theorem markdown_to_telegram_html_balanced (s : List Char) :
    checkBalance (markdown_to_telegram_html s) [] = true := by
  unfold markdown_to_telegram_html validateTags
  have hok := pipeline_okT s
  rw [finalEscape_balance (validateGo_okT hok []) []]
  exact validateGo_balance hok []

/-! ## Claim C9: the final pass re-escapes entities produced by pass 2 -/

/-- Characters that none of the passes react to: letters, digits, space. -/
def plainChar (c : Char) : Bool := c.isAlpha || c.isDigit || c = ' '

theorem stripHtmlTags_id {l : List Char} (h : ('<' : Char) ∉ l) :
    stripHtmlTags l = l := by
  induction l with
  | nil => exact stripHtmlTags_nil
  | cons c rest ih =>
      simp at h
      rw [stripHtmlTags_not_lt rest (fun he => h.1 he.symm), ih h.2]

theorem stripHtmlTags_walk {x y : List Char} (hx : ∀ c ∈ x, ¬c = '<') :
    stripHtmlTags (x ++ y) = x ++ stripHtmlTags y := by
  induction x with
  | nil => simp
  | cons c rest ih =>
      rw [List.cons_append, stripHtmlTags_not_lt _ (hx c (by simp)),
        ih (fun d hd => hx d (by simp [hd])), List.cons_append]

theorem escapeBareLt_cons_ne {c : Char} (rest : List Char) (h : ¬c = '<') :
    escapeBareLt (c :: rest) = c :: escapeBareLt rest := by
  rw [escapeBareLt]
  simp [h]

theorem escapeBareLt_id {l : List Char} (h : ('<' : Char) ∉ l) :
    escapeBareLt l = l := by
  induction l with
  | nil => simp [escapeBareLt]
  | cons c rest ih =>
      simp at h
      rw [escapeBareLt_cons_ne rest (fun he => h.1 he.symm), ih h.2]

theorem escapeBareLt_walk {x y : List Char} (hx : ∀ c ∈ x, ¬c = '<') :
    escapeBareLt (x ++ y) = x ++ escapeBareLt y := by
  induction x with
  | nil => simp
  | cons c rest ih =>
      rw [List.cons_append, escapeBareLt_cons_ne _ (hx c (by simp)),
        ih (fun d hd => hx d (by simp [hd])), List.cons_append]

theorem escapeBareLt_lt_escaped {b : List Char}
    (hsl : ¬b.head? = some '/') (hgt : ('>' : Char) ∉ b) :
    escapeBareLt ('<' :: b) = '&' :: 'l' :: 't' :: ';' :: escapeBareLt b := by
  have hla : ltLookahead b = false := by
    rw [ltLookahead, if_neg hsl]
    cases hlg : lettersThenGt b with
    | false => rfl
    | true => exact absurd (lettersThenGt_mem hlg) hgt
  rw [escapeBareLt]
  simp [hla]

theorem convFences_id {l : List Char} (h : ('`' : Char) ∉ l) :
    convFences l = l := by
  induction l with
  | nil => exact convFences_nil
  | cons c rest ih =>
      simp at h
      rw [convFences_not_fence (isPrefixOf_cons_ne (fun he => h.1 he.symm)),
        ih h.2]

theorem convPair_id {d0 : Char} {dr pre post : List Char} {l : List Char}
    (h : d0 ∉ l) : convPair d0 dr pre post l = l := by
  induction l with
  | nil => exact convPair_nil d0 dr pre post
  | cons c rest ih =>
      simp at h
      rw [convPair_unmatched pre post (isPrefixOf_cons_ne (fun he => h.1 he.symm)),
        ih h.2]

theorem hdrGo_id {l : List Char} (h : ('#' : Char) ∉ l) :
    ∀ flag, hdrGo l flag = l := by
  induction l with
  | nil => intro flag; exact hdrGo_nil flag
  | cons c rest ih =>
      intro flag
      simp at h
      rw [hdrGo_no_hdr (fun hcon => h.1 hcon.2.symm), ih h.2]

theorem validateGo_id {l : List Char} (h : ('<' : Char) ∉ l) :
    validateGo l [] = l := by
  induction l with
  | nil => rw [validateGo_nil]; rfl
  | cons c rest ih =>
      simp at h
      rw [validateGo_cons_ne c rest [] (fun he => h.1 he.symm), ih h.2]

theorem finalEscape_walk {x y : List Char}
    (hx : ∀ c ∈ x, ¬c = '<' ∧ ¬c = '>' ∧ ¬c = '&') :
    finalEscape (x ++ y) = x ++ finalEscape y := by
  induction x with
  | nil => simp
  | cons c rest ih =>
      have hc := hx c (by simp)
      rw [List.cons_append, finalEscape_other _ hc.1 hc.2.1 hc.2.2,
        ih (fun d hd => hx d (by simp [hd])), List.cons_append]

theorem finalEscape_id {l : List Char}
    (h : ∀ c ∈ l, ¬c = '<' ∧ ¬c = '>' ∧ ¬c = '&') :
    finalEscape l = l := by
  induction l with
  | nil => exact finalEscape_nil
  | cons c rest ih =>
      have hc := h c (by simp)
      rw [finalEscape_other _ hc.1 hc.2.1 hc.2.2,
        ih (fun d hd => h d (by simp [hd]))]

theorem plainChar_ne {c d : Char} (hc : plainChar c = true)
    (hd : plainChar d = false) : ¬c = d := bool_pred_ne hc hd

/-- C9: the final escaping pass re-escapes the ampersand of the `&lt;`
entity that pass 2 itself produced for a bare `<`: for plain text around a
bare `<`, pass 2 yields `&lt;` at that position and the full pipeline
yields `&amp;lt;` there, not `&lt;`. -/
theorem bare_lt_double_escaped (a b : List Char)
    (ha : a.all plainChar = true) (hb : b.all plainChar = true) :
    escapeBareLt (stripHtmlTags (a ++ '<' :: b)) =
      a ++ '&' :: 'l' :: 't' :: ';' :: b ∧
    markdown_to_telegram_html (a ++ '<' :: b) =
      a ++ '&' :: 'a' :: 'm' :: 'p' :: ';' :: 'l' :: 't' :: ';' :: b := by
  simp only [List.all_eq_true] at ha hb
  have hane : ∀ (d : Char), plainChar d = false → ∀ c ∈ a, ¬c = d :=
    fun d hd c hc => plainChar_ne (ha c hc) hd
  have hbne : ∀ (d : Char), plainChar d = false → ∀ c ∈ b, ¬c = d :=
    fun d hd c hc => plainChar_ne (hb c hc) hd
  have hgtb : ('>' : Char) ∉ b := by
    intro hmem
    exact hbne '>' (by decide) '>' hmem rfl
  have hltb : ('<' : Char) ∉ b := by
    intro hmem
    exact hbne '<' (by decide) '<' hmem rfl
  have hslb : ¬b.head? = some '/' := by
    cases b with
    | nil => simp
    | cons c rest =>
        simp
        exact hbne '/' (by decide) c (by simp)
  have h1 : stripHtmlTags (a ++ '<' :: b) = a ++ '<' :: b := by
    rw [stripHtmlTags_walk (hane '<' (by decide))]
    have hhb : ¬b.head? = some '>' := by
      cases b with
      | nil => simp
      | cons c rest =>
          simp
          exact hbne '>' (by decide) c (by simp)
    rw [stripHtmlTags_lt_none hhb (splitAfterGt_none hgtb),
      stripHtmlTags_id hltb]
  have h2 : escapeBareLt (a ++ '<' :: b) =
      a ++ '&' :: 'l' :: 't' :: ';' :: b := by
    rw [escapeBareLt_walk (hane '<' (by decide)),
      escapeBareLt_lt_escaped hslb hgtb, escapeBareLt_id hltb]
  refine ⟨by rw [h1, h2], ?_⟩
  unfold markdown_to_telegram_html validateTags
  rw [h1, h2]
  have hmid : ∀ c ∈ ('&' :: 'l' :: 't' :: ';' :: b), plainChar c = true ∨
      c ∈ (['&', 'l', 't', ';'] : List Char) := by
    intro c hc
    simp at hc
    rcases hc with rfl | rfl | rfl | rfl | hc
    · right; simp
    · right; simp
    · right; simp
    · right; simp
    · left; exact hb c hc
  have hset : ∀ (d : Char), plainChar d = false →
      (d ∉ (['&', 'l', 't', ';'] : List Char)) →
      ∀ c ∈ a ++ '&' :: 'l' :: 't' :: ';' :: b, ¬c = d := by
    intro d hd hdn c hc
    simp at hc
    rcases hc with hc | rfl | rfl | rfl | rfl | hc
    · exact plainChar_ne (ha c hc) hd
    · intro he; rw [← he] at hdn; simp at hdn
    · intro he; rw [← he] at hdn; simp at hdn
    · intro he; rw [← he] at hdn; simp at hdn
    · intro he; rw [← he] at hdn; simp at hdn
    · exact plainChar_ne (hb c hc) hd
  have htick : ('`' : Char) ∉ a ++ '&' :: 'l' :: 't' :: ';' :: b := by
    intro hmem
    exact hset '`' (by decide) (by decide) '`' hmem rfl
  have hstar : ('*' : Char) ∉ a ++ '&' :: 'l' :: 't' :: ';' :: b := by
    intro hmem
    exact hset '*' (by decide) (by decide) '*' hmem rfl
  have htilde : ('~' : Char) ∉ a ++ '&' :: 'l' :: 't' :: ';' :: b := by
    intro hmem
    exact hset '~' (by decide) (by decide) '~' hmem rfl
  have hhash : ('#' : Char) ∉ a ++ '&' :: 'l' :: 't' :: ';' :: b := by
    intro hmem
    exact hset '#' (by decide) (by decide) '#' hmem rfl
  have hlt2 : ('<' : Char) ∉ a ++ '&' :: 'l' :: 't' :: ';' :: b := by
    intro hmem
    exact hset '<' (by decide) (by decide) '<' hmem rfl
  rw [convFences_id htick]
  unfold convInlineCode convBoldItalic convBold convItalic convStrike
  rw [convPair_id htick, convPair_id hstar, convPair_id hstar,
    convPair_id hstar, convPair_id htilde]
  unfold convHeaders
  rw [hdrGo_id hhash, validateGo_id hlt2]
  rw [finalEscape_walk (fun c hc => ⟨plainChar_ne (ha c hc) (by decide),
    plainChar_ne (ha c hc) (by decide), plainChar_ne (ha c hc) (by decide)⟩)]
  rw [finalEscape_amp,
    finalEscape_other _ (by decide) (by decide) (by decide),
    finalEscape_other _ (by decide) (by decide) (by decide),
    finalEscape_other _ (by decide) (by decide) (by decide)]
  rw [finalEscape_id (fun c hc => ⟨plainChar_ne (hb c hc) (by decide),
    plainChar_ne (hb c hc) (by decide), plainChar_ne (hb c hc) (by decide)⟩)]

theorem bare_lt_double_escaped_witness :
    escapeBareLt (stripHtmlTags (['x'] ++ '<' :: ['y'])) =
      ['x'] ++ '&' :: 'l' :: 't' :: ';' :: ['y'] ∧
    markdown_to_telegram_html (['x'] ++ '<' :: ['y']) =
      ['x'] ++ '&' :: 'a' :: 'm' :: 'p' :: ';' :: 'l' :: 't' :: ';' :: ['y'] :=
  bare_lt_double_escaped ['x'] ['y'] (by decide) (by decide)

/-! ## Claim C3: generation failure path of process_user_message

bot.py `process_user_message` wraps its whole body in try/except: if the
model call raises, or returns an empty/whitespace response (which raises
`ValueError`), the outer handler catches the exception, sends a fixed
apology text and RETURNS NORMALLY — the exception never reaches
`webhook_handler`, whose own record-keeping therefore marks the update
`completed`.  The generator call is embedded as an explicit outcome. -/

inductive GenOutcome where
  | ok (text : String)
  | raise (msg : String)

structure ProcessResult where
  userData : UserData
  replies : List String
  raised : Bool
deriving DecidableEq

/-- The fixed apology reply of bot.py line 337 (the apostrophe of the
literal is spelled via its code point). -/
def apologyText : String :=
  "Sorry, I" ++ String.mk [Char.ofNat 39] ++
    "m having trouble right now. Could you try again in a moment?"

/-- `not response_text or response_text.strip() == ""`. -/
def strWsOnly (s : String) : Bool := s.data.all isPyWs

/-- bot.py `process_user_message` (lines 273-337).  The usage gate runs
first; on denial the handler returns with no model call.  The user message
is appended in place (it stays appended even when generation fails).  A
raising generator or an empty response is caught by the outer except:
the apology is sent and the function returns normally, so `raised` is
false on every path. -/
def process_user_message (u : UserData) (limit : Option Nat) (today : String)
    (content : String) (gen : GenOutcome) : ProcessResult :=
  let acc := check_user_access u limit today
  if acc.1 = false then ⟨acc.2, [], false⟩
  else
    let u1 := acc.2
    let h1 := u1.history ++ [⟨"user", content⟩]
    match gen with
    | .raise _ => ⟨{ u1 with history := h1 }, [apologyText], false⟩
    | .ok t =>
        if strWsOnly t then ⟨{ u1 with history := h1 }, [apologyText], false⟩
        else
          ⟨{ u1 with history :=
              (appendAndTrim u1.history ⟨"user", content⟩ ⟨"assistant", t⟩) },
           [String.mk (markdown_to_telegram_html t.data)], false⟩

/-- C3 counterexample: a failing generator produces the apology reply with
no exception escaping the handler, so the webhook marks the update
`completed` — not `error` with the underlying message, as claimed. -/
theorem generation_failure_finalizes_completed_cex :
    (process_user_message (init_user_data "Helper.") none "2025-03-01" "hi"
      (.raise "boom")).replies = [apologyText] ∧
    (process_user_message (init_user_data "Helper.") none "2025-03-01" "hi"
      (.raise "boom")).raised = false ∧
    finalizeUpdate emptyUpdStore "1" 5
      (process_user_message (init_user_data "Helper.") none "2025-03-01" "hi"
        (.raise "boom")).raised "boom" "1" =
      some (.entry ⟨5, some .completed⟩) ∧
    some (StoreVal.entry ⟨5, some .completed⟩) ≠
      some (StoreVal.entry ⟨5, some (.error "boom")⟩) := by
  refine ⟨?_, ?_, ?_, by decide⟩
  · decide
  · decide
  · decide

/-- C3 amended: when the Response Generator raises or returns a
whitespace-only response and the usage gate had admitted the message, the
user receives the fixed apology reply, the handler swallows the failure
(`raised` is false), and the deduplication record is therefore finalized
with status `completed`; `error` status would be recorded only if an
exception propagated out of update processing, which this path prevents. -/
theorem generation_failure_apology_and_completed (u : UserData)
    (limit : Option Nat) (today content msg t : String)
    (store : UpdStore) (uid : String) (now : Nat)
    (hacc : (check_user_access u limit today).1 = true)
    (hws : strWsOnly t = true) :
    (process_user_message u limit today content (.raise msg)).replies =
      [apologyText] ∧
    (process_user_message u limit today content (.raise msg)).raised = false ∧
    (process_user_message u limit today content (.ok t)).replies =
      [apologyText] ∧
    (process_user_message u limit today content (.ok t)).raised = false ∧
    finalizeUpdate store uid now
      (process_user_message u limit today content (.raise msg)).raised msg uid =
      some (.entry ⟨now, some .completed⟩) := by
  have hne : ¬(check_user_access u limit today).1 = false := by
    rw [hacc]; simp
  refine ⟨?_, ?_, ?_, ?_, ?_⟩
  · simp [process_user_message, hne]
  · simp [process_user_message, hne]
  · simp [process_user_message, hne, hws]
  · simp [process_user_message, hne, hws]
  · simp [process_user_message, hne, finalizeUpdate]

theorem generation_failure_apology_and_completed_witness :
    (process_user_message (init_user_data "Helper.") none "2025-03-01" "hi"
      (.raise "x")).replies = [apologyText] ∧
    (process_user_message (init_user_data "Helper.") none "2025-03-01" "hi"
      (.raise "x")).raised = false ∧
    (process_user_message (init_user_data "Helper.") none "2025-03-01" "hi"
      (.ok "")).replies = [apologyText] ∧
    (process_user_message (init_user_data "Helper.") none "2025-03-01" "hi"
      (.ok "")).raised = false ∧
    finalizeUpdate emptyUpdStore "9" 77
      (process_user_message (init_user_data "Helper.") none "2025-03-01" "hi"
        (.raise "x")).raised "x" "9" =
      some (.entry ⟨77, some .completed⟩) :=
  generation_failure_apology_and_completed (init_user_data "Helper.") none
    "2025-03-01" "hi" "x" "" emptyUpdStore "9" 77 (by decide) (by decide)
